import Mathlib

/-!
# Memory allocator (`myalloc.c`, `list.c`): embedding and verified properties

The arena is one byte buffer.  Addresses are byte offsets from the start of the
buffer (`myalloc.memory` is offset `0`) and are integers, so that an address
computed below the buffer (`p - HEADER_SIZE` with `p < 8`) is representable and
is caught by the bounds check of the memory access.  A `size_t` is an integer in
`[0, 2^64)`, an `int` an integer in `[-2^31, 2^31)`; the conversions the C code
performs implicitly are written out with `toSizeT` and `toInt`; `int` arithmetic
that leaves the range of `int` wraps around (`toInt`), `size_t` arithmetic is
modulo `2^64` (`toSizeT`), and a `size_t` is stored little-endian.  An operation
returns `none` where the C code has no defined result: a failed `assert`, an
access outside the buffer, a dereferenced null descriptor.
-/

namespace Allocator

/-! ## Machine integers and the byte buffer -/

/-- Size of the header (`#define HEADER_SIZE 8`). -/
def HEADER_SIZE : Int := 8

/-- Conversion of an integer value to `int` (32-bit two's complement). -/
def toInt (x : Int) : Int := (x + 2147483648) % 4294967296 - 2147483648

/-- Conversion of an integer value to `size_t` (64-bit unsigned). -/
def toSizeT (x : Int) : Int := x % 18446744073709551616

/-- The `k` little-endian bytes of `v`. -/
def leBytes : Nat → Nat → List Nat
  | 0, _ => []
  | k + 1, v => v % 256 :: leBytes k (v / 256)

/-- The value of a little-endian byte string. -/
def leValue : List Nat → Nat
  | [] => 0
  | b :: bs => b + 256 * leValue bs

/-- `List_getSize`: `*(size_t *)(size)`, the 8 bytes at address `addr` read as a
`size_t`; `none` when the 8 bytes are not all inside the buffer. -/
def List_getSize (memory : List Nat) (addr : Int) : Option Int :=
  if 0 ≤ addr ∧ addr + 8 ≤ memory.length then
    some (leValue ((memory.drop addr.toNat).take 8))
  else none

/-- `List_getSizeInt`: `(int)*(size_t *)(size)`. -/
def List_getSizeInt (memory : List Nat) (addr : Int) : Option Int :=
  (List_getSize memory addr).map toInt

/-- Store of a `size_t` at address `addr` (`memcpy(addr, &v, 8)` and
`*(size_t *)addr = v`); `none` when the 8 bytes are not all inside the buffer. -/
def storeSize (memory : List Nat) (addr : Int) (v : Int) : Option (List Nat) :=
  if 0 ≤ addr ∧ addr + 8 ≤ memory.length then
    some (memory.take addr.toNat ++ leBytes 8 (toSizeT v).toNat ++ memory.drop (addr.toNat + 8))
  else none

/-- The call `memset(memory, 0, n)`; `none` when `n` bytes do not fit the buffer. -/
def memset0 (memory : List Nat) (n : Int) : Option (List Nat) :=
  if 0 ≤ n ∧ n ≤ memory.length then
    some (List.replicate n.toNat 0 ++ memory.drop n.toNat)
  else none

/-! ## `list.c` -/

/-- A descriptor (`struct memoryBlock`).  Its field `size` is the `void *size` of
the source: it holds the address of the block's payload.  The `next` link is the
position in the list that holds the descriptor. -/
structure memoryBlock where
  size : Int
  deriving DecidableEq

/-- `List_createBlock`. -/
def List_createBlock (chunk : Int) : memoryBlock := ⟨chunk⟩

/-- The `while` loop of `List_insertBlock`, seen from `current->next`: advance
while `current->next->size < chunk->size`, then link `chunk` in. -/
def List_insertBlock_walk (chunk : memoryBlock) : List memoryBlock → List memoryBlock
  | [] => [chunk]
  | nxt :: rest =>
    if nxt.size < chunk.size then nxt :: List_insertBlock_walk chunk rest
    else chunk :: nxt :: rest

/-- `List_insertBlock`. -/
def List_insertBlock (head : List memoryBlock) (chunk : memoryBlock) : List memoryBlock :=
  match head with
  | [] => [chunk]
  | current :: rest =>
    if chunk.size < current.size then chunk :: current :: rest
    else current :: List_insertBlock_walk chunk rest

/-- `List_findBlock`: the first descriptor whose `size` field equals `chunk`. -/
def List_findBlock : List memoryBlock → Int → Option memoryBlock
  | [], _ => none
  | temp :: rest, chunk => if temp.size = chunk then some temp else List_findBlock rest chunk

/-- The walk of `List_deleteBlock` for a non-null `chunk`.  A descriptor carries
nothing but its payload address, so unlinking the node `chunk` leaves the same
sequence of descriptors as unlinking the first node equal to it.  Running off the
end of the list dereferences a null `current`: `none`. -/
def List_unlink (chunk : memoryBlock) : List memoryBlock → Option (List memoryBlock)
  | [] => none
  | current :: rest =>
    if current = chunk then some rest
    else (List_unlink chunk rest).map (fun l => current :: l)

/-- `List_deleteBlock`.  With a null `chunk` both branches end in `chunk->next`. -/
def List_deleteBlock (head : List memoryBlock) (chunk : Option memoryBlock) :
    Option (List memoryBlock) :=
  match chunk with
  | none => none
  | some c => List_unlink c head

/-- `List_freeBlock`: `List_deleteBlock` followed by `free(chunk)`. -/
def List_freeBlock (head : List memoryBlock) (chunk : Option memoryBlock) :
    Option (List memoryBlock) :=
  List_deleteBlock head chunk

/-- `List_destroy`. -/
def List_destroy (_head : List memoryBlock) : List memoryBlock := []

/-! ## `myalloc.c` -/

/-- The placement policies (`enum allocation_algorithm`). -/
inductive allocation_algorithm where
  | FIRST_FIT
  | BEST_FIT
  | WORST_FIT
  deriving DecidableEq

open allocation_algorithm

/-- The allocator state (`struct Myalloc`).  `memory` is the content of the
buffer.  `beyond_size` is the value of the four bytes that follow the field
`size` in the struct: `compact_allocation` copies 8 bytes starting at the 4-byte
`size`, so they reach the header it writes. -/
structure Myalloc where
  aalgorithm : allocation_algorithm
  size : Int
  memory : List Nat
  allocated : List memoryBlock
  free : List memoryBlock
  beyond_size : Int
  deriving DecidableEq

/-- `init_free_memory`. -/
def init_free_memory (st : Myalloc) : Option Myalloc := do
  let zeroed ← memset0 st.memory st.size
  let chunk := List_createBlock (0 + HEADER_SIZE)
  let free := List_insertBlock st.free chunk
  let header := toSizeT (toInt (st.size - HEADER_SIZE))
  let memory ← storeSize zeroed 0 header
  some { st with memory := memory, free := free }

/-- `initialize_allocator`.  `malloc` returns a buffer of `_size` bytes (its
content is overwritten by the `memset`); the free list is the null pointer of the
zero-initialised global.  `beyond` is the value of the struct bytes after `size`. -/
def initialize_allocator (_size : Int) (_aalgorithm : allocation_algorithm) (beyond : Int) :
    Option Myalloc :=
  if _size > 0 then
    init_free_memory
      { aalgorithm := _aalgorithm, size := _size, memory := List.replicate _size.toNat 0,
        allocated := [], free := [], beyond_size := beyond }
  else none

/-- `allocator`: the helper of `allocate`; returns the new state and `block->size`. -/
def allocator (st : Myalloc) (_size : Int) (block : memoryBlock) : Option (Myalloc × Int) := do
  let s ← List_getSize st.memory (block.size - HEADER_SIZE)
  let (memory1, free1, remainder_size) ←
    if s ≥ toSizeT (toInt (_size + HEADER_SIZE)) then do
      let header := toSizeT (toSizeT (s - toSizeT _size) - toSizeT HEADER_SIZE)
      let memory1 ← storeSize st.memory (block.size + _size) header
      let newnode := List_createBlock (block.size + _size + HEADER_SIZE)
      pure (memory1, List_insertBlock st.free newnode, (0 : Int))
    else
      pure (st.memory, st.free, s)
  let free2 ← List_deleteBlock free1 (some block)
  let allocated := List_insertBlock st.allocated block
  let memory2 ← storeSize memory1 (block.size - HEADER_SIZE)
    (toSizeT (toSizeT _size + remainder_size))
  some ({ st with memory := memory2, free := free2, allocated := allocated }, block.size)

/-- The `FIRST_FIT` loop of `allocate`: the descriptor handed to `allocator`. -/
def first_fit (memory : List Nat) (_size : Int) : List memoryBlock → Option (Option memoryBlock)
  | [] => some none
  | current :: rest => do
    let s ← List_getSizeInt memory (current.size - HEADER_SIZE)
    if s ≥ _size then some (some current) else first_fit memory _size rest

/-- The `WORST_FIT` loop of `allocate`, from loop variables `fragment_size` and
`temp_block`; yields the final `temp_block`. -/
def worst_fit (memory : List Nat) (_size : Int) :
    List memoryBlock → Int → Option memoryBlock → Option (Option memoryBlock)
  | [], _, temp_block => some temp_block
  | current :: rest, fragment_size, temp_block => do
    let s ← List_getSize memory (current.size - HEADER_SIZE)
    if s ≥ toSizeT _size then
      let si ← List_getSizeInt memory (current.size - HEADER_SIZE)
      if si ≥ toInt (_size + fragment_size) then
        let w ← List_getSize memory current.size
        worst_fit memory _size rest (toInt (toSizeT (w - toSizeT _size))) (some current)
      else worst_fit memory _size rest fragment_size temp_block
    else worst_fit memory _size rest fragment_size temp_block

/-- The `BEST_FIT` loop of `allocate`, from loop variables `fragment_size` and
`temp_block`; yields the final `temp_block`. -/
def best_fit (memory : List Nat) (_size : Int) :
    List memoryBlock → Int → Option memoryBlock → Option (Option memoryBlock)
  | [], _, temp_block => some temp_block
  | current :: rest, fragment_size, temp_block => do
    let s ← List_getSize memory (current.size - HEADER_SIZE)
    if s ≥ toSizeT _size then
      let si ← List_getSizeInt memory (current.size - HEADER_SIZE)
      if si ≤ toInt (_size + fragment_size) then
        let w ← List_getSize memory current.size
        best_fit memory _size rest (toInt (toSizeT (w - toSizeT _size))) (some current)
      else best_fit memory _size rest fragment_size temp_block
    else best_fit memory _size rest fragment_size temp_block

/-- The search of `allocate`: the free descriptor its policy selects, if any. -/
def select_block (st : Myalloc) (_size : Int) : Option (Option memoryBlock) :=
  match st.aalgorithm with
  | FIRST_FIT => first_fit st.memory _size st.free
  | WORST_FIT => worst_fit st.memory _size st.free 0 none
  | BEST_FIT => best_fit st.memory _size st.free st.size none

/-- `allocate`: the new state and the returned pointer (`none` is `NULL`). -/
def allocate (st : Myalloc) (_size : Int) : Option (Myalloc × Option Int) :=
  if _size > 0 then
    match select_block st _size with
    | none => none
    | some none => some (st, none)
    | some (some block) => (allocator st _size block).map (fun r => (r.1, some r.2))
  else none

/-- The coalescing `while` loop of `deallocate`.  The free list is
`before ++ current :: after`, with `current` the loop variable.  `fuel` bounds the
number of iterations (`none` when it runs out).  On a merge,
`List_findBlock(free, current->next->size)` is the first descriptor of the whole
list with that address: one of `before`, or `current` itself (the loop then goes
on from a freed `current`: `none`), or `current->next`.  The two addresses of the
test are compared as offsets into the buffer. -/
def merge_loop : Nat → List Nat → List memoryBlock → memoryBlock → List memoryBlock →
    Option (List Nat × List memoryBlock)
  | 0, _, _, _, _ => none
  | _ + 1, memory, before, current, [] => some (memory, before ++ [current])
  | fuel + 1, memory, before, current, next :: rest => do
    let h ← List_getSize memory (current.size - HEADER_SIZE)
    let current_size := toSizeT (h + toSizeT HEADER_SIZE)
    if current.size + current_size = next.size then
      let hn ← List_getSize memory (next.size - HEADER_SIZE)
      let memory1 ← storeSize memory (current.size - HEADER_SIZE) (toSizeT (h + hn))
      match List_findBlock before next.size with
      | some found => do
        let before1 ← List_freeBlock before (some found)
        merge_loop fuel memory1 before1 current (next :: rest)
      | none =>
        if current.size = next.size then none
        else merge_loop fuel memory1 before current rest
    else merge_loop fuel memory (before ++ [current]) next rest

/-- `deallocate`.  `_ptr` is an address relative to the buffer, so it is not the
null pointer.  The loop is given `2 * length` iterations, which it never
exhausts (`merge_loop_fuel`). -/
def deallocate (st : Myalloc) (_ptr : Int) : Option Myalloc := do
  let temp := List_findBlock st.allocated _ptr
  let allocated ← List_deleteBlock st.allocated temp
  let chunk ← temp
  let st1 := { st with allocated := allocated, free := List_insertBlock st.free chunk }
  let st2 ←
    if st1.allocated = [] then init_free_memory { st1 with free := List_destroy st1.free }
    else some st1
  match st2.free with
  | [] => none
  | current :: after => do
    let (memory, free) ← merge_loop (2 * st2.free.length) st2.memory [] current after
    some { st2 with memory := memory, free := free }

/-- The `while` loop of `compact_allocation`: the `(_before[i], _after[i])` pairs
it writes, in order. -/
def compact_loop : List memoryBlock → List (Int × Int)
  | [] => []
  | current :: rest =>
    if 0 < current.size then (current.size, current.size) :: compact_loop rest
    else compact_loop rest

/-- `compact_allocation`: the new state, the returned count and the contents of
`_before` and `_after`.  `memcpy(myalloc.memory, &myalloc.size, HEADER_SIZE)`
copies the four bytes of `size` and the four bytes after it. -/
def compact_allocation (st : Myalloc) : Option (Myalloc × Int × List Int × List Int) := do
  let pairs := compact_loop st.allocated
  let temp := List_createBlock (0 + HEADER_SIZE)
  let free := List_insertBlock st.free temp
  let raw := st.size % 4294967296 + 4294967296 * (st.beyond_size % 4294967296)
  let memory ← storeSize st.memory 0 raw
  some ({ st with memory := memory, free := free },
    toInt pairs.length, pairs.map Prod.fst, pairs.map Prod.snd)

/-- The `while` loop of `available_memory`, from the running total. -/
def available_loop (memory : List Nat) : List memoryBlock → Int → Option Int
  | [], available_memory_size => some available_memory_size
  | current :: rest, available_memory_size => do
    let s ← List_getSizeInt memory (current.size - HEADER_SIZE)
    available_loop memory rest (toInt (available_memory_size + s))

/-- `available_memory`. -/
def available_memory (st : Myalloc) : Option Int :=
  available_loop st.memory st.free 0

/-- Modelled from the spec: `struct Stats` is declared in `myalloc.h`, which is not
among the sources.  Its fields are the six that `get_statistics` assigns (the
"allocated size, allocated chunk count, free size, free chunk count, smallest free
chunk size, largest free chunk size" of the spec); they are taken to be of type
`int`, the type of the values `get_statistics` stores in them. -/
structure Stats where
  allocated_size : Int
  allocated_chunks : Int
  free_size : Int
  free_chunks : Int
  smallest_free_chunk_size : Int
  largest_free_chunk_size : Int
  deriving DecidableEq

/-- The first `while` loop of `get_statistics`, over the allocated list. -/
def statistics_allocated (memory : List Nat) : List memoryBlock → Stats → Option Stats
  | [], stats => some stats
  | current_allocated :: rest, stats => do
    let s ← List_getSizeInt memory (current_allocated.size - HEADER_SIZE)
    statistics_allocated memory rest
      { stats with allocated_size := toInt (stats.allocated_size + s),
                   allocated_chunks := toInt (stats.allocated_chunks + 1) }

/-- The second `while` loop of `get_statistics`, over the free list. -/
def statistics_free (memory : List Nat) : List memoryBlock → Stats → Option Stats
  | [], stats => some stats
  | current_free :: rest, stats => do
    let current_chunk_size ← List_getSizeInt memory (current_free.size - HEADER_SIZE)
    statistics_free memory rest
      { stats with
        free_size := toInt (stats.free_size + current_chunk_size),
        smallest_free_chunk_size :=
          if stats.smallest_free_chunk_size < current_chunk_size
          then stats.smallest_free_chunk_size else current_chunk_size,
        largest_free_chunk_size :=
          if stats.largest_free_chunk_size > current_chunk_size
          then stats.largest_free_chunk_size else current_chunk_size,
        free_chunks := toInt (stats.free_chunks + 1) }

/-- `get_statistics`: the value stored in `*_stat`. -/
def get_statistics (st : Myalloc) : Option Stats := do
  let stats : Stats :=
    { allocated_size := 0, allocated_chunks := 0, free_size := 0, free_chunks := 0,
      largest_free_chunk_size := 0, smallest_free_chunk_size := st.size }
  let stats ← statistics_allocated st.memory st.allocated stats
  statistics_free st.memory st.free stats

/-! ## Runs of the allocator -/

/-- The values of C type `int`. -/
def IsInt (x : Int) : Prop := -2147483648 ≤ x ∧ x < 2147483648

instance (x : Int) : Decidable (IsInt x) := by unfold IsInt; infer_instance

/-- A call of one of the three state-changing operations. -/
inductive Call where
  | allocate (_size : Int)
  | deallocate (_ptr : Int)
  | compact_allocation
  deriving DecidableEq

/-- The state after a call; `none` when the call does not return. -/
def step (st : Myalloc) : Call → Option Myalloc
  | .allocate _size => if IsInt _size then (allocate st _size).map Prod.fst else none
  | .deallocate _ptr => deallocate st _ptr
  | .compact_allocation => (compact_allocation st).map Prod.fst

/-- The state after a sequence of calls. -/
def run (st : Myalloc) : List Call → Option Myalloc
  | [] => some st
  | c :: cs => (step st c).bind (fun st1 => run st1 cs)

/-- The states reachable from `initialize_allocator` by calls that return. -/
def Reachable (st : Myalloc) : Prop :=
  ∃ (_size : Int) (alg : allocation_algorithm) (beyond : Int) (st0 : Myalloc) (calls : List Call),
    IsInt _size ∧ initialize_allocator _size alg beyond = some st0 ∧ run st0 calls = some st

/-- The header of the block whose payload is at `p`. -/
def header (st : Myalloc) (p : Int) : Option Int :=
  List_getSize st.memory (p - HEADER_SIZE)

/-- A descriptor list in non-decreasing order of the key `List_insertBlock`
compares, the field `size` of the descriptors. -/
def SortedByKey (l : List memoryBlock) : Prop :=
  List.Pairwise (fun a b => a.size ≤ b.size) l

instance (l : List memoryBlock) : Decidable (SortedByKey l) := by
  unfold SortedByKey; infer_instance

/-- The state after `initialize_allocator _size alg 0` and the calls `calls`
(an arena of size 0 without blocks if one of them does not return). -/
def state_after (_size : Int) (alg : allocation_algorithm) (calls : List Call) : Myalloc :=
  ((initialize_allocator _size alg 0).bind (fun st0 => run st0 calls)).getD
    { aalgorithm := alg, size := 0, memory := [], allocated := [], free := [], beyond_size := 0 }

/-- Whether the header-declared payload size of `a` is at most that of `b`. -/
def payload_size_le (st : Myalloc) (a b : memoryBlock) : Bool :=
  match header st a.size, header st b.size with
  | some x, some y => decide (x ≤ y)
  | _, _ => false

/-- A descriptor list in non-decreasing order of header-declared payload size. -/
def SortedByPayloadSize (st : Myalloc) (l : List memoryBlock) : Prop :=
  List.Pairwise (fun a b => payload_size_le st a b = true) l

instance (st : Myalloc) (l : List memoryBlock) : Decidable (SortedByPayloadSize st l) := by
  unfold SortedByPayloadSize; infer_instance

/-- The capacity is an `int` of at least one header and the buffer has that many bytes. -/
def Sized (st : Myalloc) : Prop :=
  IsInt st.size ∧ 8 ≤ st.size ∧ (st.memory.length : Int) = st.size

/-- The sum over the free and the allocated blocks of header size plus
header-declared payload size (an unreadable header counts as payload size 0). -/
def total_size (st : Myalloc) : Int :=
  ((st.free ++ st.allocated).map (fun b => 8 + (header st b.size).getD 0)).sum

/-- The blocks of `l`, in this order, fill the bytes from `pos` to `stop`: each
block's header is at the end of the previous block's region and is followed by
the block's payload. -/
def Tiles (memory : List Nat) : Int → Int → List memoryBlock → Prop
  | pos, stop, [] => pos = stop
  | pos, stop, b :: bs =>
    b.size = pos + 8 ∧ ∃ h, List_getSize memory pos = some h ∧ Tiles memory (pos + 8 + h) stop bs

/-- The regions of the free and allocated blocks, taken in some order, fill the
buffer from its first to its last byte. -/
def Tiled (st : Myalloc) : Prop :=
  ∃ l, List.Perm l (st.free ++ st.allocated) ∧ Tiles st.memory 0 st.size l

/-- A returning call that is not one of: an `allocate` that hands out a whole free
block without splitting it, a `deallocate` whose coalescing loop merges two blocks,
a `compact_allocation`.  An `allocate` that returns null or splits leaves the
number of free descriptors unchanged; a `deallocate` either empties the allocated
list or adds one free descriptor and removes none. -/
def conserving (st : Myalloc) (call : Call) (st1 : Myalloc) : Prop :=
  match call with
  | .allocate _ => st1.free.length = st.free.length
  | .deallocate _ => st1.allocated = [] ∨ st1.free.length = st.free.length + 1
  | .compact_allocation => False

instance (st : Myalloc) (call : Call) (st1 : Myalloc) : Decidable (conserving st call st1) := by
  unfold conserving; cases call <;> infer_instance

/-- The state after a sequence of calls all of which return and are `conserving`. -/
def run_conserving (st : Myalloc) : List Call → Option Myalloc
  | [] => some st
  | c :: cs =>
    (step st c).bind (fun st1 => if conserving st c st1 then run_conserving st1 cs else none)

/-- Whether the region of block `b` (its header and its header-declared payload)
lies inside the buffer. -/
def region_inside (st : Myalloc) (b : memoryBlock) : Bool :=
  match header st b.size with
  | some h => decide (0 ≤ b.size - HEADER_SIZE ∧ b.size + h ≤ st.size)
  | none => false

/-- The calls that lead to free blocks of payload sizes 50, 10 and 30, in this order
of address, in a buffer of 132 bytes: the blocks at 8, 75 and 102, kept apart by two
allocated blocks of one byte. -/
def calls_50_10_30 : List Call :=
  [.allocate 50, .allocate 1, .allocate 10, .allocate 1, .deallocate 8, .deallocate 75]

/-- Every descriptor of the two lists has its header inside the buffer. -/
def HeadersInBuffer (st : Myalloc) : Prop :=
  ∀ b ∈ st.free ++ st.allocated, 8 ≤ b.size ∧ b.size ≤ st.memory.length

/-- The `while` loop of `List_insertBlock` (as `List_insertBlock_walk`) on nodes of any
type `α` whose compared field `size` is given by `key`: what else a node carries, such
as the identity of its `struct memoryBlock`, plays no part in the comparisons. -/
def List_insertBlock_walk_keyed {α : Type} (key : α → Int) (chunk : α) : List α → List α
  | [] => [chunk]
  | nxt :: rest =>
    if key nxt < key chunk then nxt :: List_insertBlock_walk_keyed key chunk rest
    else chunk :: nxt :: rest

/-- `List_insertBlock` on nodes of any type `α` whose compared field `size` is given by
`key`; on `memoryBlock` with `key = memoryBlock.size` it is `List_insertBlock`
(`List_insertBlock_eq_keyed`).  With nodes that carry their identity, two nodes of the
same key can be told apart. -/
def List_insertBlock_keyed {α : Type} (key : α → Int) (head : List α) (chunk : α) : List α :=
  match head with
  | [] => [chunk]
  | current :: rest =>
    if key chunk < key current then chunk :: current :: rest
    else current :: List_insertBlock_walk_keyed key chunk rest

/-- The merge condition on two descriptors `a` and `b` of the free list:
`a.addr + header(a) + 8 = b.addr`, the sum taken in the integers, with `header(a)`
the `size_t` value of the header of `a`. -/
def mergeable (memory : List Nat) (a b : memoryBlock) : Prop :=
  ∃ h, List_getSize memory (a.size - HEADER_SIZE) = some h ∧
    a.size + h + HEADER_SIZE = b.size

/-! ## The descriptor lists -/

theorem walk_split (chunk : memoryBlock) (l : List memoryBlock) :
    ∃ pre post, l = pre ++ post ∧ List_insertBlock_walk chunk l = pre ++ chunk :: post ∧
      (∀ x ∈ pre, x.size < chunk.size) ∧ (∀ y, post.head? = some y → chunk.size ≤ y.size) := by
  induction l with
  | nil => exact ⟨[], [], rfl, rfl, by simp, by simp⟩
  | cons a t ih =>
    by_cases hlt : a.size < chunk.size
    · obtain ⟨pre, post, h1, h2, h3, h4⟩ := ih
      refine ⟨a :: pre, post, by simp [h1], by simp [List_insertBlock_walk, hlt, h2], ?_, h4⟩
      intro x hx
      rcases List.mem_cons.1 hx with rfl | hx
      · exact hlt
      · exact h3 x hx
    · refine ⟨[], a :: t, rfl, by simp [List_insertBlock_walk, hlt], by simp, ?_⟩
      intro y hy
      simp at hy
      subst hy
      omega

theorem insert_split (head : List memoryBlock) (chunk : memoryBlock) :
    ∃ pre post, head = pre ++ post ∧ List_insertBlock head chunk = pre ++ chunk :: post ∧
      (∀ x ∈ pre, x.size ≤ chunk.size) ∧ (∀ y, post.head? = some y → chunk.size ≤ y.size) := by
  cases head with
  | nil => exact ⟨[], [], rfl, rfl, by simp, by simp⟩
  | cons a t =>
    by_cases hlt : chunk.size < a.size
    · refine ⟨[], a :: t, rfl, by simp [List_insertBlock, hlt], by simp, ?_⟩
      intro y hy
      simp at hy
      subst hy
      omega
    · obtain ⟨pre, post, h1, h2, h3, h4⟩ := walk_split chunk t
      refine ⟨a :: pre, post, by simp [h1], by simp [List_insertBlock, hlt, h2], ?_, h4⟩
      intro x hx
      rcases List.mem_cons.1 hx with rfl | hx
      · omega
      · exact le_of_lt (h3 x hx)

theorem sorted_head_le {l : List memoryBlock} (hs : SortedByKey l) {y z : memoryBlock}
    (hy : l.head? = some y) (hz : z ∈ l) : y.size ≤ z.size := by
  cases l with
  | nil => simp at hy
  | cons a t =>
    simp at hy
    subst hy
    rcases List.mem_cons.1 hz with rfl | hz
    · exact le_refl _
    · exact List.rel_of_pairwise_cons hs hz

theorem insert_sorted {head : List memoryBlock} (chunk : memoryBlock) (hs : SortedByKey head) :
    SortedByKey (List_insertBlock head chunk) := by
  obtain ⟨pre, post, h1, h2, h3, h4⟩ := insert_split head chunk
  subst h1
  rw [h2]
  unfold SortedByKey at hs ⊢
  rw [List.pairwise_append] at hs ⊢
  obtain ⟨hpre, hpost, hcross⟩ := hs
  refine ⟨hpre, ?_, ?_⟩
  · rw [List.pairwise_cons]
    refine ⟨?_, hpost⟩
    intro z hz
    cases hp : post.head? with
    | none =>
      cases post with
      | nil => simp at hz
      | cons => simp at hp
    | some y => exact le_trans (h4 y hp) (sorted_head_le hpost hp hz)
  · intro x hx z hz
    rcases List.mem_cons.1 hz with rfl | hz
    · exact h3 x hx
    · exact hcross x hx z hz

theorem unlink_sublist {chunk : memoryBlock} {l l1 : List memoryBlock}
    (h : List_unlink chunk l = some l1) : List.Sublist l1 l := by
  induction l generalizing l1 with
  | nil => simp [List_unlink] at h
  | cons a t ih =>
    by_cases hc : a = chunk
    · simp [List_unlink, hc] at h
      subst h
      exact List.sublist_cons_self _ _
    · simp [List_unlink, hc] at h
      obtain ⟨l2, h2, rfl⟩ := h
      exact (ih h2).cons₂ a

theorem merge_loop_sublist (fuel : Nat) : ∀ (memory : List Nat) (before : List memoryBlock)
    (current : memoryBlock) (after : List memoryBlock) (r : List Nat × List memoryBlock),
    merge_loop fuel memory before current after = some r →
    List.Sublist r.2 (before ++ current :: after) := by
  induction fuel with
  | zero => intro m b c a r h; simp [merge_loop] at h
  | succ n ih =>
    intro m b c a r h
    cases a with
    | nil => simp [merge_loop] at h; subst h; simp
    | cons nxt rest =>
      simp only [merge_loop] at h
      cases hh : List_getSize m (c.size - HEADER_SIZE) with
      | none => simp [hh] at h
      | some hv =>
        simp only [hh, Option.bind_eq_bind, Option.some_bind] at h
        split at h
        · cases hn : List_getSize m (nxt.size - HEADER_SIZE) with
          | none => simp [hn] at h
          | some hnv =>
            simp only [hn, Option.some_bind] at h
            cases hm : storeSize m (c.size - HEADER_SIZE) (toSizeT (hv + hnv)) with
            | none => simp [hm] at h
            | some m1 =>
              simp only [hm, Option.some_bind] at h
              split at h
              · rename_i found hf
                cases hb : List_freeBlock b (some found) with
                | none => simp [hb] at h
                | some b1 =>
                  simp only [hb, Option.some_bind] at h
                  exact (ih _ _ _ _ _ h).trans
                    (List.Sublist.append (unlink_sublist hb) (List.Sublist.refl _))
              · split at h
                · simp at h
                · exact (ih _ _ _ _ _ h).trans
                    (List.Sublist.append (List.Sublist.refl _)
                      ((List.sublist_cons_self _ _).cons₂ _))
        · have := ih _ _ _ _ _ h
          simpa using this

theorem unlink_length {chunk : memoryBlock} {l l1 : List memoryBlock}
    (h : List_unlink chunk l = some l1) : l1.length + 1 = l.length := by
  induction l generalizing l1 with
  | nil => simp [List_unlink] at h
  | cons a t ih =>
    by_cases hc : a = chunk
    · simp [List_unlink, hc] at h
      subst h
      rfl
    · simp [List_unlink, hc] at h
      obtain ⟨l2, h2, rfl⟩ := h
      simp [ih h2]

theorem merge_loop_fuel (fuel : Nat) : ∀ (fuel1 : Nat) (memory : List Nat)
    (before : List memoryBlock) (current : memoryBlock) (after : List memoryBlock),
    before.length + 2 * after.length < fuel → before.length + 2 * after.length < fuel1 →
    merge_loop fuel memory before current after = merge_loop fuel1 memory before current after := by
  induction fuel with
  | zero => intro f1 m b c a h; omega
  | succ n ih =>
    intro f1 m b c a h h1
    cases f1 with
    | zero => omega
    | succ n1 =>
      cases a with
      | nil => simp [merge_loop]
      | cons nxt rest =>
        simp only [merge_loop]
        cases hh : List_getSize m (c.size - HEADER_SIZE) with
        | none => simp
        | some hv =>
          simp only [Option.bind_eq_bind, Option.some_bind]
          simp only [List.length_cons] at h h1
          split
          · cases hn : List_getSize m (nxt.size - HEADER_SIZE) with
            | none => simp
            | some hnv =>
              simp only [Option.some_bind]
              cases hm : storeSize m (c.size - HEADER_SIZE) (toSizeT (hv + hnv)) with
              | none => simp
              | some m1 =>
                simp only [Option.some_bind]
                split
                · rename_i found hf
                  cases hb : List_freeBlock b (some found) with
                  | none => simp
                  | some b1 =>
                    simp only [Option.some_bind]
                    have hlen := unlink_length hb
                    apply ih <;> simp only [List.length_cons] <;> omega
                · split
                  · rfl
                  · apply ih <;> omega
          · apply ih
            · simp only [List.length_append, List.length_cons, List.length_nil]; omega
            · simp only [List.length_append, List.length_cons, List.length_nil]; omega

/-! ## Inversion of the operations -/

theorem allocator_inv {st st1 : Myalloc} {_size p : Int} {block : memoryBlock}
    (h : allocator st _size block = some (st1, p)) :
    ∃ s, List_getSize st.memory (block.size - HEADER_SIZE) = some s ∧ p = block.size ∧
      st1.allocated = List_insertBlock st.allocated block ∧
      st1.size = st.size ∧ st1.aalgorithm = st.aalgorithm ∧ st1.beyond_size = st.beyond_size ∧
      ((s ≥ toSizeT (toInt (_size + HEADER_SIZE)) ∧ ∃ m1,
          storeSize st.memory (block.size + _size)
            (toSizeT (toSizeT (s - toSizeT _size) - toSizeT HEADER_SIZE)) = some m1 ∧
          List_unlink block
            (List_insertBlock st.free (List_createBlock (block.size + _size + HEADER_SIZE))) =
              some st1.free ∧
          storeSize m1 (block.size - HEADER_SIZE) (toSizeT (toSizeT _size + 0)) = some st1.memory)
       ∨ (¬ s ≥ toSizeT (toInt (_size + HEADER_SIZE)) ∧
          List_unlink block st.free = some st1.free ∧
          storeSize st.memory (block.size - HEADER_SIZE) (toSizeT (toSizeT _size + s)) =
            some st1.memory)) := by
  unfold allocator at h
  simp only [Option.bind_eq_bind, Option.pure_def] at h
  rw [Option.bind_eq_some] at h
  obtain ⟨s, hs, h⟩ := h
  refine ⟨s, hs, ?_⟩
  by_cases hc : s ≥ toSizeT (toInt (_size + HEADER_SIZE))
  · rw [if_pos hc, Option.bind_eq_some] at h
    obtain ⟨m1, hm1, h⟩ := h
    simp only [Option.some_bind] at h
    simp only [List_deleteBlock] at h
    rw [Option.bind_eq_some] at h
    obtain ⟨f2, hf2, h⟩ := h
    rw [Option.bind_eq_some] at h
    obtain ⟨m2, hm2, h⟩ := h
    simp only [Option.some.injEq, Prod.mk.injEq] at h
    obtain ⟨rfl, rfl⟩ := h
    exact ⟨rfl, rfl, rfl, rfl, rfl, Or.inl ⟨hc, m1, hm1, hf2, hm2⟩⟩
  · rw [if_neg hc] at h
    simp only [Option.some_bind, List_deleteBlock] at h
    rw [Option.bind_eq_some] at h
    obtain ⟨f2, hf2, h⟩ := h
    rw [Option.bind_eq_some] at h
    obtain ⟨m2, hm2, h⟩ := h
    simp only [Option.some.injEq, Prod.mk.injEq] at h
    obtain ⟨rfl, rfl⟩ := h
    exact ⟨rfl, rfl, rfl, rfl, rfl, Or.inr ⟨hc, hf2, hm2⟩⟩

theorem init_free_memory_inv {st st1 : Myalloc} (h : init_free_memory st = some st1) :
    ∃ zeroed, memset0 st.memory st.size = some zeroed ∧
      storeSize zeroed 0 (toSizeT (toInt (st.size - HEADER_SIZE))) = some st1.memory ∧
      st1.free = List_insertBlock st.free (List_createBlock (0 + HEADER_SIZE)) ∧
      st1.allocated = st.allocated ∧
      st1.size = st.size ∧ st1.aalgorithm = st.aalgorithm ∧ st1.beyond_size = st.beyond_size := by
  unfold init_free_memory at h
  simp only [Option.bind_eq_bind] at h
  rw [Option.bind_eq_some] at h
  obtain ⟨zeroed, hz, h⟩ := h
  rw [Option.bind_eq_some] at h
  obtain ⟨m, hm, h⟩ := h
  simp only [Option.some.injEq] at h
  subst h
  exact ⟨zeroed, hz, hm, rfl, rfl, rfl, rfl, rfl⟩

theorem allocate_inv {st st1 : Myalloc} {_size : Int} {r : Option Int}
    (h : allocate st _size = some (st1, r)) :
    0 < _size ∧ ((select_block st _size = some none ∧ st1 = st ∧ r = none) ∨
      ∃ block p, select_block st _size = some (some block) ∧
        allocator st _size block = some (st1, p) ∧ r = some p) := by
  unfold allocate at h
  by_cases hp : _size > 0
  · rw [if_pos hp] at h
    refine ⟨hp, ?_⟩
    cases hsel : select_block st _size with
    | none => rw [hsel] at h; simp at h
    | some o =>
      cases o with
      | none =>
        rw [hsel] at h
        simp only [Option.some.injEq, Prod.mk.injEq] at h
        exact Or.inl ⟨rfl, h.1.symm, h.2.symm⟩
      | some block =>
        rw [hsel] at h
        simp only [Option.map_eq_some'] at h
        obtain ⟨⟨s2, p⟩, h1, h2⟩ := h
        simp only [Prod.mk.injEq] at h2
        obtain ⟨rfl, rfl⟩ := h2
        exact Or.inr ⟨block, p, rfl, h1, rfl⟩
  · rw [if_neg hp] at h
    simp at h

theorem compact_allocation_inv {st st1 : Myalloc} {r : Int × List Int × List Int}
    (h : compact_allocation st = some (st1, r)) :
    storeSize st.memory 0
        (st.size % 4294967296 + 4294967296 * (st.beyond_size % 4294967296)) = some st1.memory ∧
      st1.free = List_insertBlock st.free (List_createBlock (0 + HEADER_SIZE)) ∧
      st1.allocated = st.allocated ∧
      st1.size = st.size ∧ st1.aalgorithm = st.aalgorithm ∧ st1.beyond_size = st.beyond_size := by
  unfold compact_allocation at h
  simp only [Option.bind_eq_bind] at h
  rw [Option.bind_eq_some] at h
  obtain ⟨m, hm, h⟩ := h
  simp only [Option.some.injEq, Prod.mk.injEq] at h
  obtain ⟨rfl, -⟩ := h
  exact ⟨hm, rfl, rfl, rfl, rfl, rfl⟩

theorem deallocate_inv {st st1 : Myalloc} {_ptr : Int} (h : deallocate st _ptr = some st1) :
    ∃ chunk allocated st2 current after,
      List_findBlock st.allocated _ptr = some chunk ∧
      List_unlink chunk st.allocated = some allocated ∧
      (if allocated = [] then
          init_free_memory { st with allocated := allocated, free := [] }
        else some { st with allocated := allocated, free := List_insertBlock st.free chunk }) =
        some st2 ∧
      st2.free = current :: after ∧
      merge_loop (2 * st2.free.length) st2.memory [] current after = some (st1.memory, st1.free) ∧
      st1.allocated = st2.allocated ∧
      st1.size = st2.size ∧ st1.aalgorithm = st2.aalgorithm ∧ st1.beyond_size = st2.beyond_size := by
  unfold deallocate at h
  simp only [Option.bind_eq_bind] at h
  rw [Option.bind_eq_some] at h
  obtain ⟨allocated, ha, h⟩ := h
  rw [Option.bind_eq_some] at h
  obtain ⟨chunk, hchunk, h⟩ := h
  rw [hchunk] at ha
  simp only [List_deleteBlock] at ha
  simp only [List_destroy] at h
  have key : ∀ st2 : Myalloc,
      (match st2.free with
        | [] => none
        | current :: after =>
          (merge_loop (2 * st2.free.length) st2.memory [] current after).bind fun r =>
            some { st2 with memory := r.1, free := r.2 }) = some st1 →
      ∃ current after, st2.free = current :: after ∧
        merge_loop (2 * st2.free.length) st2.memory [] current after =
          some (st1.memory, st1.free) ∧
        st1.allocated = st2.allocated ∧
        st1.size = st2.size ∧ st1.aalgorithm = st2.aalgorithm ∧
        st1.beyond_size = st2.beyond_size := by
    intro st2 h2
    cases hf : st2.free with
    | nil => rw [hf] at h2; simp at h2
    | cons current after =>
      rw [hf] at h2
      simp only at h2
      rw [Option.bind_eq_some] at h2
      obtain ⟨⟨m, f⟩, hm, h2⟩ := h2
      simp only [Option.some.injEq] at h2
      subst h2
      exact ⟨current, after, rfl, hm, rfl, rfl, rfl, rfl⟩
  by_cases hal : allocated = []
  · rw [if_pos hal, Option.bind_eq_some] at h
    obtain ⟨st2, hst2, h⟩ := h
    obtain ⟨current, after, h1, h2⟩ := key st2 h
    exact ⟨chunk, allocated, st2, current, after, hchunk, ha, by rw [if_pos hal]; exact hst2,
      h1, h2⟩
  · rw [if_neg hal, Option.some_bind] at h
    obtain ⟨current, after, h1, h2⟩ := key _ h
    exact ⟨chunk, allocated, _, current, after, hchunk, ha, by rw [if_neg hal], h1, h2⟩

/-! ## Reachable states -/

theorem run_induction (P : Myalloc → Prop)
    (hstep : ∀ st call st1, P st → step st call = some st1 → P st1) :
    ∀ (calls : List Call) (st st1 : Myalloc), P st → run st calls = some st1 → P st1 := by
  intro calls
  induction calls with
  | nil =>
    intro st st1 hP h
    simp only [run, Option.some.injEq] at h
    exact h ▸ hP
  | cons c cs ih =>
    intro st st1 hP h
    simp only [run] at h
    rw [Option.bind_eq_some] at h
    obtain ⟨st2, h2, h3⟩ := h
    exact ih st2 st1 (hstep st c st2 hP h2) h3

theorem reachable_induction (P : Myalloc → Prop)
    (hinit : ∀ _size alg beyond st0, IsInt _size →
      initialize_allocator _size alg beyond = some st0 → P st0)
    (hstep : ∀ st call st1, P st → step st call = some st1 → P st1) :
    ∀ st, Reachable st → P st := by
  intro st ⟨_size, alg, beyond, st0, calls, hi, h0, hr⟩
  exact run_induction P hstep calls st0 st (hinit _size alg beyond st0 hi h0) hr

theorem reachable_of_run {_size beyond : Int} {alg : allocation_algorithm} {calls : List Call}
    {st : Myalloc} (hi : IsInt _size)
    (h : (initialize_allocator _size alg beyond).bind (fun st0 => run st0 calls) = some st) :
    Reachable st := by
  rw [Option.bind_eq_some] at h
  obtain ⟨st0, h0, hr⟩ := h
  exact ⟨_size, alg, beyond, st0, calls, hi, h0, hr⟩

theorem reachable_step {st st1 : Myalloc} (call : Call) (h : Reachable st)
    (hs : step st call = some st1) : Reachable st1 := by
  obtain ⟨_size, alg, beyond, st0, calls, hi, h0, hr⟩ := h
  refine ⟨_size, alg, beyond, st0, calls ++ [call], hi, h0, ?_⟩
  clear h0
  induction calls generalizing st0 with
  | nil =>
    simp only [run, Option.some.injEq] at hr
    subst hr
    simp [run, hs]
  | cons c cs ih =>
    simp only [run] at hr
    rw [Option.bind_eq_some] at hr
    obtain ⟨st2, h2, h3⟩ := hr
    simp only [List.cons_append, run, h2, Option.some_bind]
    exact ih st2 h3

theorem step_inv {st st1 : Myalloc} {call : Call} (h : step st call = some st1) :
    (∃ _size r, IsInt _size ∧ allocate st _size = some (st1, r)) ∨
    (∃ _ptr, deallocate st _ptr = some st1) ∨
    (∃ r, compact_allocation st = some (st1, r)) := by
  cases call with
  | allocate n =>
    simp only [step] at h
    by_cases hn : IsInt n
    · rw [if_pos hn, Option.map_eq_some'] at h
      obtain ⟨⟨s, r⟩, h1, rfl⟩ := h
      exact Or.inl ⟨n, r, hn, h1⟩
    · rw [if_neg hn] at h
      simp at h
  | deallocate p => exact Or.inr (Or.inl ⟨p, h⟩)
  | compact_allocation =>
    simp only [step, Option.map_eq_some'] at h
    obtain ⟨⟨s, r⟩, h1, rfl⟩ := h
    exact Or.inr (Or.inr ⟨r, h1⟩)

theorem merge_loop_sorted {fuel : Nat} {memory : List Nat} {current : memoryBlock}
    {after : List memoryBlock} {r : List Nat × List memoryBlock}
    (hs : SortedByKey (current :: after))
    (h : merge_loop fuel memory [] current after = some r) : SortedByKey r.2 :=
  List.Pairwise.sublist (merge_loop_sublist fuel memory [] current after r h) hs

theorem allocator_sorted {st st1 : Myalloc} {_size p : Int} {block : memoryBlock}
    (hf : SortedByKey st.free) (ha : SortedByKey st.allocated)
    (h : allocator st _size block = some (st1, p)) :
    SortedByKey st1.free ∧ SortedByKey st1.allocated := by
  obtain ⟨s, -, -, hal, -, -, -, hcase⟩ := allocator_inv h
  refine ⟨?_, hal ▸ insert_sorted block ha⟩
  rcases hcase with ⟨-, m1, -, hu, -⟩ | ⟨-, hu, -⟩
  · exact List.Pairwise.sublist (unlink_sublist hu) (insert_sorted _ hf)
  · exact List.Pairwise.sublist (unlink_sublist hu) hf

theorem deallocate_sorted {st st1 : Myalloc} {_ptr : Int}
    (hf : SortedByKey st.free) (ha : SortedByKey st.allocated)
    (h : deallocate st _ptr = some st1) :
    SortedByKey st1.free ∧ SortedByKey st1.allocated := by
  obtain ⟨chunk, allocated, st2, current, after, -, hu, hst2, hfree, hm, hal, -⟩ :=
    deallocate_inv h
  have hsa : SortedByKey allocated := List.Pairwise.sublist (unlink_sublist hu) ha
  have h2 : SortedByKey st2.free ∧ SortedByKey st2.allocated := by
    by_cases he : allocated = []
    · rw [if_pos he] at hst2
      obtain ⟨z, -, -, hf2, ha2, -⟩ := init_free_memory_inv hst2
      rw [hf2, ha2]
      exact ⟨insert_sorted _ List.Pairwise.nil, hsa⟩
    · rw [if_neg he] at hst2
      simp only [Option.some.injEq] at hst2
      subst hst2
      exact ⟨insert_sorted _ hf, hsa⟩
  refine ⟨?_, hal ▸ h2.2⟩
  exact merge_loop_sorted (hfree ▸ h2.1) hm

theorem step_sorted {st st1 : Myalloc} {call : Call}
    (hs : SortedByKey st.free ∧ SortedByKey st.allocated) (h : step st call = some st1) :
    SortedByKey st1.free ∧ SortedByKey st1.allocated := by
  rcases step_inv h with ⟨n, r, -, ha⟩ | ⟨p, hd⟩ | ⟨r, hc⟩
  · obtain ⟨-, ⟨-, rfl, -⟩ | ⟨block, p, -, hal, -⟩⟩ := allocate_inv ha
    · exact hs
    · exact allocator_sorted hs.1 hs.2 hal
  · exact deallocate_sorted hs.1 hs.2 hd
  · obtain ⟨-, hf, ha, -⟩ := compact_allocation_inv hc
    rw [hf, ha]
    exact ⟨insert_sorted _ hs.1, hs.2⟩

theorem init_sorted {_size beyond : Int} {alg : allocation_algorithm} {st0 : Myalloc}
    (h : initialize_allocator _size alg beyond = some st0) :
    SortedByKey st0.free ∧ SortedByKey st0.allocated := by
  unfold initialize_allocator at h
  split at h
  · obtain ⟨z, -, -, hf, ha, -⟩ := init_free_memory_inv h
    rw [hf, ha]
    exact ⟨insert_sorted _ List.Pairwise.nil, List.Pairwise.nil⟩
  · simp at h

theorem reachable_state_after {_size : Int} {alg : allocation_algorithm} {calls : List Call}
    (hi : IsInt _size)
    (h : ((initialize_allocator _size alg 0).bind (fun st0 => run st0 calls)).isSome = true) :
    Reachable (state_after _size alg calls) := by
  apply @reachable_of_run _size 0 alg calls _ hi
  unfold state_after
  cases ho : (initialize_allocator _size alg 0).bind (fun st0 => run st0 calls) with
  | none => rw [ho] at h; simp at h
  | some x => rfl

/-! ## The byte buffer -/

theorem leBytes_length (k v : Nat) : (leBytes k v).length = k := by
  induction k generalizing v with
  | zero => rfl
  | succ k ih => simp [leBytes, ih]

theorem leValue_leBytes (k v : Nat) : leValue (leBytes k v) = v % 256 ^ k := by
  induction k generalizing v with
  | zero => simp [leBytes, leValue, Nat.mod_one]
  | succ k ih =>
    simp only [leBytes, leValue, ih]
    rw [pow_succ, Nat.mul_comm (256 ^ k) 256, Nat.mod_mul]

theorem window_store_same (m bs : List Nat) (a : Nat) (hlen : bs.length = 8)
    (ha : a + 8 ≤ m.length) :
    ((m.take a ++ bs ++ m.drop (a + 8)).drop a).take 8 = bs := by
  rw [List.append_assoc, List.drop_left' (by simp; omega), List.take_left' hlen]

theorem window_store_before (m bs : List Nat) (a b : Nat) (ha : a + 8 ≤ m.length)
    (hb : b + 8 ≤ a) :
    ((m.take a ++ bs ++ m.drop (a + 8)).drop b).take 8 = (m.drop b).take 8 := by
  rw [List.take_drop, List.take_drop, List.append_assoc,
    List.take_append_of_le_length (by simp; omega), List.take_take]
  congr 2
  omega

theorem window_store_after (m bs : List Nat) (a b : Nat) (hlen : bs.length = 8)
    (ha : a + 8 ≤ m.length) (hb : a + 8 ≤ b) :
    (m.take a ++ bs ++ m.drop (a + 8)).drop b = m.drop b := by
  have h1 : (m.take a ++ bs).length = a + 8 := by simp [hlen]; omega
  have h2 : b = (m.take a ++ bs).length + (b - (a + 8)) := by omega
  rw [h2, List.drop_append, List.drop_drop, h1]

theorem storeSize_length {m m1 : List Nat} {a v : Int} (h : storeSize m a v = some m1) :
    m1.length = m.length := by
  unfold storeSize at h
  split at h
  · rename_i hc
    simp only [Option.some.injEq] at h
    subst h
    simp [leBytes_length]
    omega
  · simp at h

theorem storeSize_some (m : List Nat) (a v : Int) (h0 : 0 ≤ a) (h1 : a + 8 ≤ m.length) :
    ∃ m1, storeSize m a v = some m1 := by
  unfold storeSize
  rw [if_pos ⟨h0, h1⟩]
  exact ⟨_, rfl⟩

theorem storeSize_bounds {m m1 : List Nat} {a v : Int} (h : storeSize m a v = some m1) :
    0 ≤ a ∧ a + 8 ≤ m.length := by
  unfold storeSize at h
  split at h
  · assumption
  · simp at h

theorem toSizeT_range (v : Int) : 0 ≤ toSizeT v ∧ toSizeT v < 18446744073709551616 := by
  unfold toSizeT
  omega

theorem getSize_store_same {m m1 : List Nat} {a v : Int} (h : storeSize m a v = some m1) :
    List_getSize m1 a = some (toSizeT v) := by
  have hb := storeSize_bounds h
  have hl := storeSize_length h
  unfold storeSize at h
  rw [if_pos hb, Option.some.injEq] at h
  unfold List_getSize
  rw [if_pos ⟨hb.1, by rw [hl]; exact hb.2⟩, ← h,
    window_store_same _ _ _ (leBytes_length _ _) (by omega), leValue_leBytes]
  have hr := toSizeT_range v
  congr 1
  have : (256 : Nat) ^ 8 = 18446744073709551616 := by norm_num
  rw [this]
  omega

theorem getSize_store_other {m m1 : List Nat} {a v : Int} (b : Int)
    (h : storeSize m a v = some m1) (hd : b + 8 ≤ a ∨ a + 8 ≤ b) :
    List_getSize m1 b = List_getSize m b := by
  have hb := storeSize_bounds h
  have hl := storeSize_length h
  unfold storeSize at h
  rw [if_pos hb, Option.some.injEq] at h
  unfold List_getSize
  rw [hl]
  by_cases hc : 0 ≤ b ∧ b + 8 ≤ m.length
  · rw [if_pos hc, if_pos hc, ← h]
    rcases hd with hd | hd
    · rw [window_store_before _ _ _ _ (by omega) (by omega)]
    · rw [window_store_after _ _ _ _ (leBytes_length _ _) (by omega) (by omega)]
  · rw [if_neg hc, if_neg hc]

theorem getSize_nonneg {m : List Nat} {a s : Int} (h : List_getSize m a = some s) : 0 ≤ s := by
  unfold List_getSize at h
  split at h
  · simp only [Option.some.injEq] at h
    rw [← h]
    exact Int.natCast_nonneg _
  · simp at h

theorem leValue_replicate_zero (k : Nat) : leValue (List.replicate k 0) = 0 := by
  induction k with
  | zero => rfl
  | succ k ih => simp [List.replicate, leValue, ih]

theorem getSize_zeros (n : Nat) (rest : List Nat) (a : Int) (h0 : 0 ≤ a) (h1 : a + 8 ≤ n) :
    List_getSize (List.replicate n 0 ++ rest) a = some 0 := by
  unfold List_getSize
  rw [if_pos ⟨h0, by simp; omega⟩]
  have : ((List.replicate n 0 ++ rest).drop a.toNat).take 8 = List.replicate 8 0 := by
    rw [List.take_drop, List.take_append_of_le_length (by simp; omega), List.take_replicate,
      List.drop_replicate]
    congr 1
    omega
  rw [this, leValue_replicate_zero]
  rfl

theorem memset0_inv {m z : List Nat} {n : Int} (h : memset0 m n = some z) :
    0 ≤ n ∧ n ≤ m.length ∧ z = List.replicate n.toNat 0 ++ m.drop n.toNat ∧
      z.length = m.length := by
  unfold memset0 at h
  split at h
  · rename_i hc
    simp only [Option.some.injEq] at h
    subst h
    refine ⟨hc.1, hc.2, rfl, ?_⟩
    simp
    omega
  · simp at h

/-! ## The coalescing loop -/

theorem merge_loop_cons_inv {fuel : Nat} {m : List Nat} {b : List memoryBlock}
    {c nxt : memoryBlock} {rest : List memoryBlock} {r : List Nat × List memoryBlock}
    (h : merge_loop (fuel + 1) m b c (nxt :: rest) = some r) :
    ∃ hc, List_getSize m (c.size - HEADER_SIZE) = some hc ∧
      ((c.size + toSizeT (hc + toSizeT HEADER_SIZE) = nxt.size ∧ ∃ hn m1,
          List_getSize m (nxt.size - HEADER_SIZE) = some hn ∧
          storeSize m (c.size - HEADER_SIZE) (toSizeT (hc + hn)) = some m1 ∧
          ((∃ found b1, List_findBlock b nxt.size = some found ∧
              List_unlink found b = some b1 ∧
              merge_loop fuel m1 b1 c (nxt :: rest) = some r) ∨
           (List_findBlock b nxt.size = none ∧ c.size ≠ nxt.size ∧
              merge_loop fuel m1 b c rest = some r))) ∨
       (c.size + toSizeT (hc + toSizeT HEADER_SIZE) ≠ nxt.size ∧
          merge_loop fuel m (b ++ [c]) nxt rest = some r)) := by
  simp only [merge_loop, Option.bind_eq_bind] at h
  rw [Option.bind_eq_some] at h
  obtain ⟨hc, hhc, h⟩ := h
  refine ⟨hc, hhc, ?_⟩
  by_cases hadj : c.size + toSizeT (hc + toSizeT HEADER_SIZE) = nxt.size
  · rw [if_pos hadj, Option.bind_eq_some] at h
    obtain ⟨hn, hhn, h⟩ := h
    rw [Option.bind_eq_some] at h
    obtain ⟨m1, hm1, h⟩ := h
    refine Or.inl ⟨hadj, hn, m1, hhn, hm1, ?_⟩
    cases hf : List_findBlock b nxt.size with
    | some found =>
      rw [hf] at h
      simp only [List_freeBlock, List_deleteBlock] at h
      rw [Option.bind_eq_some] at h
      obtain ⟨b1, hb1, h⟩ := h
      exact Or.inl ⟨found, b1, rfl, hb1, h⟩
    | none =>
      rw [hf] at h
      simp only at h
      by_cases he : c.size = nxt.size
      · rw [if_pos he] at h
        simp at h
      · rw [if_neg he] at h
        exact Or.inr ⟨rfl, he, h⟩
  · rw [if_neg hadj] at h
    exact Or.inr ⟨hadj, h⟩

theorem merge_loop_length (fuel : Nat) : ∀ (m : List Nat) (b : List memoryBlock)
    (c : memoryBlock) (a : List memoryBlock) (r : List Nat × List memoryBlock),
    merge_loop fuel m b c a = some r → r.1.length = m.length := by
  induction fuel with
  | zero => intro m b c a r h; simp [merge_loop] at h
  | succ n ih =>
    intro m b c a r h
    cases a with
    | nil => simp [merge_loop] at h; subst h; rfl
    | cons nxt rest =>
      obtain ⟨hc, -, ⟨-, hn, m1, -, hm1, ⟨found, b1, -, -, hr⟩ | ⟨-, -, hr⟩⟩ | ⟨-, hr⟩⟩ :=
        merge_loop_cons_inv h
      · rw [ih _ _ _ _ _ hr, storeSize_length hm1]
      · rw [ih _ _ _ _ _ hr, storeSize_length hm1]
      · exact ih _ _ _ _ _ hr

/-! ## Size of the buffer in reachable states -/

theorem init_free_memory_sized {st st1 : Myalloc} (hi : IsInt st.size)
    (hl : (st.memory.length : Int) = st.size)
    (h : init_free_memory st = some st1) : Sized st1 := by
  obtain ⟨z, hz, hm, -, -, hsz, -⟩ := init_free_memory_inv h
  obtain ⟨-, -, -, hzl⟩ := memset0_inv hz
  have hb := storeSize_bounds hm
  have hml := storeSize_length hm
  refine ⟨hsz ▸ hi, ?_, ?_⟩
  · rw [hsz]; omega
  · rw [hsz, hml, hzl]; exact hl

theorem init_sized {_size beyond : Int} {alg : allocation_algorithm} {st0 : Myalloc}
    (hi : IsInt _size) (h : initialize_allocator _size alg beyond = some st0) : Sized st0 := by
  unfold initialize_allocator at h
  split at h
  · rename_i hp
    refine init_free_memory_sized hi ?_ h
    simp only [List.length_replicate]
    omega
  · simp at h

theorem step_sized {st st1 : Myalloc} {call : Call} (hs : Sized st)
    (h : step st call = some st1) : Sized st1 := by
  obtain ⟨hi, h8, hl⟩ := hs
  rcases step_inv h with ⟨n, r, -, ha⟩ | ⟨p, hd⟩ | ⟨r, hc⟩
  · obtain ⟨-, ⟨-, rfl, -⟩ | ⟨block, p, -, hal, -⟩⟩ := allocate_inv ha
    · exact ⟨hi, h8, hl⟩
    · obtain ⟨s, -, -, -, hsz, -, -, hcase⟩ := allocator_inv hal
      rw [Sized, hsz]
      refine ⟨hi, h8, ?_⟩
      rcases hcase with ⟨-, m1, hm1, -, hm2⟩ | ⟨-, -, hm2⟩
      · rw [storeSize_length hm2, storeSize_length hm1]; exact hl
      · rw [storeSize_length hm2]; exact hl
  · obtain ⟨chunk, allocated, st2, current, after, -, -, hst2, -, hm, -, hsz, -⟩ :=
      deallocate_inv hd
    have h2 : Sized st2 := by
      by_cases he : allocated = []
      · rw [if_pos he] at hst2
        refine init_free_memory_sized ?_ ?_ hst2
        · exact hi
        · exact hl
      · rw [if_neg he] at hst2
        simp only [Option.some.injEq] at hst2
        subst hst2
        exact ⟨hi, h8, hl⟩
    have := merge_loop_length _ _ _ _ _ _ hm
    simp only at this
    rw [Sized, hsz, this]
    exact h2
  · obtain ⟨hm, -, -, hsz, -⟩ := compact_allocation_inv hc
    rw [Sized, hsz, storeSize_length hm]
    exact ⟨hi, h8, hl⟩

theorem reachable_sized {st : Myalloc} (h : Reachable st) : Sized st :=
  reachable_induction Sized (fun _ _ _ _ hi h0 => init_sized hi h0)
    (fun _ _ _ hs hstep => step_sized hs hstep) st h

/-! ## Forward computation of the operations -/

theorem init_free_memory_some (st : Myalloc) (hs : Sized st) :
    ∃ m, init_free_memory st =
        some { st with memory := m,
                       free := List_insertBlock st.free (List_createBlock (0 + HEADER_SIZE)) } ∧
      List_getSize m 0 = some (st.size - 8) ∧
      (∀ a : Int, 8 ≤ a → a + 8 ≤ st.size → List_getSize m a = some 0) ∧
      (m.length : Int) = st.size := by
  obtain ⟨hi, h8, hl⟩ := hs
  have hz : memset0 st.memory st.size =
      some (List.replicate st.size.toNat 0 ++ st.memory.drop st.size.toNat) := by
    unfold memset0
    rw [if_pos ⟨by omega, by omega⟩]
  have hzl : (List.replicate st.size.toNat 0 ++ st.memory.drop st.size.toNat).length =
      st.memory.length := by
    simp
    omega
  obtain ⟨m, hm⟩ := storeSize_some (List.replicate st.size.toNat 0 ++ st.memory.drop st.size.toNat)
    0 (toSizeT (toInt (st.size - HEADER_SIZE))) (le_refl _) (by rw [hzl]; omega)
  have hv : toSizeT (toSizeT (toInt (st.size - HEADER_SIZE))) = st.size - 8 := by
    unfold IsInt at hi
    unfold toSizeT toInt HEADER_SIZE
    omega
  refine ⟨m, ?_, ?_, ?_, ?_⟩
  · unfold init_free_memory
    simp only [hz, hm, Option.bind_eq_bind, Option.some_bind]
  · rw [getSize_store_same hm, hv]
  · intro a ha1 ha2
    rw [getSize_store_other a hm (Or.inr (by omega))]
    exact getSize_zeros _ _ a (by omega) (by omega)
  · rw [storeSize_length hm, hzl]
    exact hl

theorem initialize_allocator_some (_size beyond : Int) (alg : allocation_algorithm)
    (hi : IsInt _size) (h8 : 8 ≤ _size) :
    ∃ m, initialize_allocator _size alg beyond =
        some { aalgorithm := alg, size := _size, memory := m, allocated := [],
               free := [List_createBlock 8], beyond_size := beyond } ∧
      List_getSize m 0 = some (_size - 8) ∧
      (∀ a : Int, 8 ≤ a → a + 8 ≤ _size → List_getSize m a = some 0) ∧
      (m.length : Int) = _size := by
  obtain ⟨m, h1, h2, h3, h4⟩ := init_free_memory_some
    { aalgorithm := alg, size := _size, memory := List.replicate _size.toNat 0,
      allocated := [], free := [], beyond_size := beyond }
    ⟨hi, h8, by simp only [List.length_replicate]; omega⟩
  refine ⟨m, ?_, h2, h3, h4⟩
  unfold initialize_allocator
  rw [if_pos (by omega), h1]
  rfl

theorem allocator_split {st : Myalloc} {_size s : Int} {block : memoryBlock}
    {m1 m2 : List Nat} {f2 : List memoryBlock}
    (hs : List_getSize st.memory (block.size - HEADER_SIZE) = some s)
    (hc : s ≥ toSizeT (toInt (_size + HEADER_SIZE)))
    (hm1 : storeSize st.memory (block.size + _size)
      (toSizeT (toSizeT (s - toSizeT _size) - toSizeT HEADER_SIZE)) = some m1)
    (hf2 : List_unlink block
      (List_insertBlock st.free (List_createBlock (block.size + _size + HEADER_SIZE))) = some f2)
    (hm2 : storeSize m1 (block.size - HEADER_SIZE) (toSizeT (toSizeT _size + 0)) = some m2) :
    allocator st _size block =
      some ({ st with memory := m2, free := f2,
                      allocated := List_insertBlock st.allocated block }, block.size) := by
  unfold allocator
  simp only [hs, Option.bind_eq_bind, Option.some_bind, if_pos hc, hm1, Option.pure_def,
    List_deleteBlock, hf2, hm2]

theorem select_block_initial (c n beyond : Int) (alg : allocation_algorithm) (m : List Nat)
    (hc : IsInt c) (hn : 0 < n) (hfit : n + 8 + 1 ≤ c - 8)
    (hbest : alg = BEST_FIT → n + c < 2147483648)
    (h0 : List_getSize m 0 = some (c - 8)) (h8 : List_getSize m 8 = some 0) :
    select_block { aalgorithm := alg, size := c, memory := m, allocated := [],
                   free := [List_createBlock 8], beyond_size := beyond } n =
      some (some (List_createBlock 8)) := by
  unfold IsInt at hc
  have e0 : (8 : Int) - HEADER_SIZE = 0 := by
    simp [HEADER_SIZE]
  have t1 : toInt (c - 8) = c - 8 := by unfold toInt; omega
  have t2 : toSizeT n = n := by unfold toSizeT; omega
  cases alg with
  | FIRST_FIT =>
    simp only [select_block, first_fit, List_getSizeInt, List_createBlock, e0, h0,
      Option.map_some', Option.bind_eq_bind, Option.some_bind, t1]
    rw [if_pos (by omega)]
  | WORST_FIT =>
    have t3 : toInt (n + 0) = n := by unfold toInt; omega
    simp only [select_block, worst_fit, List_getSizeInt, List_createBlock, e0, h0, h8,
      Option.map_some', Option.bind_eq_bind, Option.some_bind, t1, t2, t3]
    rw [if_pos (by omega), if_pos (by omega)]
  | BEST_FIT =>
    have hb := hbest rfl
    have t3 : toInt (n + c) = n + c := by unfold toInt; omega
    simp only [select_block, best_fit, List_getSizeInt, List_createBlock, e0, h0, h8,
      Option.map_some', Option.bind_eq_bind, Option.some_bind, t1, t2, t3]
    rw [if_pos (by omega), if_pos (by omega)]

/-! ## Tiling of the buffer -/

theorem tiles_append {m : List Nat} {pos stop : Int} {l1 l2 : List memoryBlock} :
    Tiles m pos stop (l1 ++ l2) ↔ ∃ mid, Tiles m pos mid l1 ∧ Tiles m mid stop l2 := by
  induction l1 generalizing pos with
  | nil =>
    constructor
    · intro h
      exact ⟨pos, rfl, h⟩
    · rintro ⟨mid, h1, h2⟩
      simp only [Tiles] at h1
      subst h1
      exact h2
  | cons b bs ih =>
    constructor
    · intro h
      simp only [List.cons_append, Tiles] at h
      obtain ⟨hb, hv, hhv, ht⟩ := h
      obtain ⟨mid, h1, h2⟩ := ih.1 ht
      exact ⟨mid, ⟨hb, hv, hhv, h1⟩, h2⟩
    · rintro ⟨mid, ⟨hb, hv, hhv, h1⟩, h2⟩
      exact ⟨hb, hv, hhv, ih.2 ⟨mid, h1, h2⟩⟩

theorem tiles_le {m : List Nat} {pos stop : Int} {l : List memoryBlock}
    (h : Tiles m pos stop l) : pos ≤ stop := by
  induction l generalizing pos with
  | nil => simp only [Tiles] at h; omega
  | cons b bs ih =>
    obtain ⟨-, hv, hhv, ht⟩ := h
    have := ih ht
    have := getSize_nonneg hhv
    omega

theorem tiles_frame {m m1 : List Nat} {pos stop : Int} {l : List memoryBlock}
    (h : Tiles m pos stop l)
    (hsame : ∀ a, pos ≤ a → a + 8 ≤ stop → List_getSize m1 a = List_getSize m a) :
    Tiles m1 pos stop l := by
  induction l generalizing pos with
  | nil => exact h
  | cons b bs ih =>
    obtain ⟨hb, hv, hhv, ht⟩ := h
    have h1 := tiles_le ht
    have h2 := getSize_nonneg hhv
    refine ⟨hb, hv, ?_, ?_⟩
    · rw [hsame pos (le_refl _) (by omega)]
      exact hhv
    · exact ih ht (fun a ha1 ha2 => hsame a (by omega) ha2)

theorem tiles_sum {m : List Nat} {pos stop : Int} {l : List memoryBlock}
    (h : Tiles m pos stop l) :
    (l.map (fun b => 8 + (List_getSize m (b.size - HEADER_SIZE)).getD 0)).sum = stop - pos ∧
    ∀ b ∈ l, (List_getSize m (b.size - HEADER_SIZE)).isSome = true := by
  induction l generalizing pos with
  | nil =>
    simp only [Tiles] at h
    subst h
    simp
  | cons b bs ih =>
    obtain ⟨hb, hv, hhv, ht⟩ := h
    obtain ⟨h1, h2⟩ := ih ht
    have e : b.size - HEADER_SIZE = pos := by rw [hb]; unfold HEADER_SIZE; omega
    constructor
    · simp only [List.map_cons, List.sum_cons, h1, e, hhv, Option.getD_some]
      omega
    · intro x hx
      rcases List.mem_cons.1 hx with rfl | hx
      · rw [e, hhv]; rfl
      · exact h2 x hx

theorem insert_perm (head : List memoryBlock) (chunk : memoryBlock) :
    List.Perm (List_insertBlock head chunk) (chunk :: head) := by
  obtain ⟨pre, post, h1, h2, -⟩ := insert_split head chunk
  rw [h2, h1]
  exact List.perm_middle

theorem unlink_perm {chunk : memoryBlock} {l l1 : List memoryBlock}
    (h : List_unlink chunk l = some l1) : List.Perm l (chunk :: l1) := by
  induction l generalizing l1 with
  | nil => simp [List_unlink] at h
  | cons a t ih =>
    by_cases hc : a = chunk
    · simp [List_unlink, hc] at h
      subst h
      rw [hc]
    · simp [List_unlink, hc] at h
      obtain ⟨l2, h2, rfl⟩ := h
      exact ((ih h2).cons a).trans (List.Perm.swap chunk a l2)

theorem findBlock_mem {l : List memoryBlock} {p : Int} {chunk : memoryBlock}
    (h : List_findBlock l p = some chunk) : chunk ∈ l ∧ chunk.size = p := by
  induction l with
  | nil => simp [List_findBlock] at h
  | cons a t ih =>
    by_cases hc : a.size = p
    · simp [List_findBlock, hc] at h
      subst h
      exact ⟨List.mem_cons_self _ _, hc⟩
    · simp [List_findBlock, hc] at h
      exact ⟨List.mem_cons_of_mem _ (ih h).1, (ih h).2⟩

theorem merge_loop_same_length (fuel : Nat) : ∀ (m : List Nat) (b : List memoryBlock)
    (c : memoryBlock) (a : List memoryBlock) (r : List Nat × List memoryBlock),
    merge_loop fuel m b c a = some r → r.2.length = (b ++ c :: a).length →
    r = (m, b ++ c :: a) := by
  induction fuel with
  | zero => intro m b c a r h; simp [merge_loop] at h
  | succ n ih =>
    intro m b c a r h hlen
    cases a with
    | nil => simp [merge_loop] at h; subst h; rfl
    | cons nxt rest =>
      obtain ⟨hc, -, ⟨-, hn, m1, -, hm1, ⟨found, b1, -, hu, hr⟩ | ⟨-, -, hr⟩⟩ | ⟨-, hr⟩⟩ :=
        merge_loop_cons_inv h
      · have h1 := (merge_loop_sublist _ _ _ _ _ _ hr).length_le
        have h2 := unlink_length hu
        simp only [List.length_append, List.length_cons] at h1 hlen
        omega
      · have h1 := (merge_loop_sublist _ _ _ _ _ _ hr).length_le
        simp only [List.length_append, List.length_cons] at h1 hlen
        omega
      · have := ih _ _ _ _ _ hr (by simpa using hlen)
        simpa using this

theorem allocator_tiled {st st1 : Myalloc} {_size p : Int} {block : memoryBlock}
    (hs : Sized st) (ht : Tiled st) (hn : 0 < _size) (hi : IsInt _size)
    (h : allocator st _size block = some (st1, p))
    (hlen : st1.free.length = st.free.length) : Tiled st1 := by
  obtain ⟨s, hgs, -, hal, hsz, -, -, hcase⟩ := allocator_inv h
  rcases hcase with ⟨hge, m1, hm1, hu, hm2⟩ | ⟨-, hu, -⟩
  swap
  · have := unlink_length hu
    omega
  obtain ⟨l, hperm, htiles⟩ := ht
  have hp1 := unlink_perm hu
  have hp2 := insert_perm st.free (List_createBlock (block.size + _size + HEADER_SIZE))
  have hbmem : block ∈ st.free := by
    have h1 : block ∈ List_createBlock (block.size + _size + HEADER_SIZE) :: st.free :=
      hp2.subset (hp1.symm.subset (List.mem_cons_self _ _))
    rcases List.mem_cons.1 h1 with h2 | h2
    · exfalso
      have h3 := congrArg memoryBlock.size h2
      simp only [List_createBlock, HEADER_SIZE] at h3
      omega
    · exact h2
  have hbl : block ∈ l := hperm.symm.subset (List.mem_append_left _ hbmem)
  obtain ⟨pre, post, hl⟩ := List.append_of_mem hbl
  subst hl
  obtain ⟨mid, hpre, hb, hv, hhv, hpost⟩ := tiles_append.1 htiles
  have e : block.size - HEADER_SIZE = mid := by rw [hb]; unfold HEADER_SIZE; omega
  rw [e] at hgs hm2
  rw [hhv, Option.some.injEq] at hgs
  subst hgs
  have hmid := tiles_le hpre
  have hend := tiles_le hpost
  have hv0 := getSize_nonneg hhv
  obtain ⟨hci, -, -⟩ := hs
  unfold IsInt at hi hci
  have hfit : _size + 8 ≤ hv := by
    unfold toSizeT toInt HEADER_SIZE at hge
    omega
  have t4 : toSizeT (toSizeT (toSizeT (hv - toSizeT _size) - toSizeT HEADER_SIZE)) =
      hv - _size - 8 := by
    unfold toSizeT HEADER_SIZE
    omega
  have t5 : toSizeT (toSizeT (toSizeT _size + 0)) = _size := by
    unfold toSizeT
    omega
  have e1 : block.size + _size = mid + 8 + _size := by rw [hb]
  rw [e1] at hm1
  have r2 := getSize_store_same hm2
  have r1 := getSize_store_same hm1
  rw [t5] at r2
  rw [t4] at r1
  refine ⟨pre ++ block :: List_createBlock (block.size + _size + HEADER_SIZE) :: post, ?_, ?_⟩
  · rw [hal]
    have q1 : List.Perm (block :: (st1.free ++ st.allocated))
        (List_createBlock (block.size + _size + HEADER_SIZE) :: (pre ++ block :: post)) := by
      have : List.Perm (block :: st1.free ++ st.allocated)
          ((List_createBlock (block.size + _size + HEADER_SIZE) :: st.free) ++ st.allocated) :=
        List.Perm.append_right _ (hp1.symm.trans hp2)
      exact this.trans (List.Perm.cons _ hperm.symm)
    have q2 : List.Perm (st1.free ++ List_insertBlock st.allocated block)
        (block :: (st1.free ++ st.allocated)) :=
      (List.Perm.append_left _ (insert_perm st.allocated block)).trans List.perm_middle
    refine List.Perm.symm (q2.trans (q1.trans ?_))
    have q3 : List.Perm (pre ++ block :: List_createBlock (block.size + _size + HEADER_SIZE) :: post)
        (block :: List_createBlock (block.size + _size + HEADER_SIZE) :: (pre ++ post)) :=
      List.perm_middle.trans (List.Perm.cons _ List.perm_middle)
    have q4 : List.Perm
        (List_createBlock (block.size + _size + HEADER_SIZE) :: (pre ++ block :: post))
        (List_createBlock (block.size + _size + HEADER_SIZE) :: block :: (pre ++ post)) :=
      List.Perm.cons _ List.perm_middle
    exact q4.trans ((List.Perm.swap _ _ _).trans q3.symm)
  · rw [hsz]
    refine tiles_append.2 ⟨mid, ?_, hb, _size, r2, ?_, hv - _size - 8, ?_, ?_⟩
    · refine tiles_frame hpre (fun a ha1 ha2 => ?_)
      rw [getSize_store_other a hm2 (Or.inl (by omega)),
        getSize_store_other a hm1 (Or.inl (by omega))]
    · simp only [List_createBlock, HEADER_SIZE]
      omega
    · rw [getSize_store_other _ hm2 (Or.inr (by omega))]
      exact r1
    · have e2 : mid + 8 + _size + 8 + (hv - _size - 8) = mid + 8 + hv := by omega
      rw [e2]
      refine tiles_frame hpost (fun a ha1 ha2 => ?_)
      rw [getSize_store_other a hm2 (Or.inr (by omega)),
        getSize_store_other a hm1 (Or.inr (by omega))]

theorem init_size {_size beyond : Int} {alg : allocation_algorithm} {st0 : Myalloc}
    (h : initialize_allocator _size alg beyond = some st0) : st0.size = _size := by
  unfold initialize_allocator at h
  split at h
  · obtain ⟨z, -, -, -, -, hsz, -⟩ := init_free_memory_inv h
    exact hsz
  · simp at h

theorem step_size {st st1 : Myalloc} {call : Call} (h : step st call = some st1) :
    st1.size = st.size := by
  rcases step_inv h with ⟨n, r, -, ha⟩ | ⟨p, hd⟩ | ⟨r, hc⟩
  · obtain ⟨-, ⟨-, rfl, -⟩ | ⟨block, p, -, hal, -⟩⟩ := allocate_inv ha
    · rfl
    · obtain ⟨s, -, -, -, hsz, -⟩ := allocator_inv hal
      exact hsz
  · obtain ⟨chunk, allocated, st2, current, after, -, -, hst2, -, -, -, hsz, -⟩ :=
      deallocate_inv hd
    rw [hsz]
    by_cases he : allocated = []
    · rw [if_pos he] at hst2
      obtain ⟨z, -, -, -, -, hsz2, -⟩ := init_free_memory_inv hst2
      exact hsz2
    · rw [if_neg he] at hst2
      simp only [Option.some.injEq] at hst2
      subst hst2
      rfl
  · obtain ⟨-, -, -, hsz, -⟩ := compact_allocation_inv hc
    exact hsz

theorem tiles_single {m : List Nat} {c : Int} (h0 : List_getSize m 0 = some (c - 8)) :
    Tiles m 0 c [List_createBlock (0 + HEADER_SIZE)] := by
  refine ⟨by simp [List_createBlock, HEADER_SIZE], c - 8, h0, ?_⟩
  simp only [Tiles]
  omega

theorem init_tiled {_size beyond : Int} {alg : allocation_algorithm} {st0 : Myalloc}
    (hi : IsInt _size) (h : initialize_allocator _size alg beyond = some st0) : Tiled st0 := by
  have hs := init_sized hi h
  have hsz := init_size h
  obtain ⟨m, h1, h2, -, -⟩ := initialize_allocator_some _size beyond alg hi (hsz ▸ hs.2.1)
  rw [h1, Option.some.injEq] at h
  subst h
  exact ⟨[List_createBlock (0 + HEADER_SIZE)], by simp [List_createBlock, HEADER_SIZE],
    tiles_single h2⟩

theorem deallocate_tiled {st st1 : Myalloc} {_ptr : Int}
    (hs : Sized st) (ht : Tiled st) (h : deallocate st _ptr = some st1)
    (hcons : st1.allocated = [] ∨ st1.free.length = st.free.length + 1) : Tiled st1 := by
  obtain ⟨chunk, allocated, st2, current, after, hfind, hu, hst2, hfree, hm, hal, hsz, -⟩ :=
    deallocate_inv h
  by_cases he : allocated = []
  · rw [if_pos he] at hst2
    obtain ⟨m, h1, h2, -, -⟩ := init_free_memory_some
      { st with allocated := allocated, free := [] } hs
    rw [h1, Option.some.injEq] at hst2
    subst hst2
    simp only [List_insertBlock, List.cons.injEq] at hfree
    obtain ⟨rfl, rfl⟩ := hfree
    simp only [List_insertBlock, List.length_cons, List.length_nil, merge_loop,
      List.nil_append, Option.some.injEq, Prod.mk.injEq] at hm
    obtain ⟨hm1, hm2⟩ := hm
    refine ⟨[List_createBlock (0 + HEADER_SIZE)], ?_, ?_⟩
    · rw [← hm2, hal, he]
      simp
    · rw [← hm1, hsz]
      exact tiles_single h2
  · rw [if_neg he] at hst2
    simp only [Option.some.injEq] at hst2
    subst hst2
    simp only at hfree hm hal hsz
    have hl : st1.free.length = st.free.length + 1 := by
      rcases hcons with h0 | h0
      · rw [hal] at h0
        exact absurd h0 he
      · exact h0
    have hil : (List_insertBlock st.free chunk).length = st.free.length + 1 :=
      (insert_perm st.free chunk).length_eq
    have hsame := merge_loop_same_length _ _ _ _ _ _ hm
      (by simp only [List.nil_append]; rw [← hfree, hil]; exact hl)
    simp only [List.nil_append, Prod.mk.injEq] at hsame
    obtain ⟨hm1, hm2⟩ := hsame
    obtain ⟨l, hperm, htiles⟩ := ht
    refine ⟨l, ?_, ?_⟩
    · rw [hm2, ← hfree, hal]
      refine hperm.trans ?_
      have q1 : List.Perm (st.free ++ st.allocated) (st.free ++ chunk :: allocated) :=
        List.Perm.append_left _ (unlink_perm hu)
      have q2 : List.Perm (List_insertBlock st.free chunk ++ allocated)
          (chunk :: st.free ++ allocated) :=
        List.Perm.append_right _ (insert_perm st.free chunk)
      exact q1.trans (List.perm_middle.trans q2.symm)
    · rw [hm1, hsz]
      exact htiles

theorem step_conserving_tiled {st st1 : Myalloc} {call : Call}
    (hs : Sized st) (ht : Tiled st) (h : step st call = some st1)
    (hcons : conserving st call st1) : Tiled st1 := by
  cases call with
  | allocate n =>
    simp only [step] at h
    by_cases hn : IsInt n
    · rw [if_pos hn, Option.map_eq_some'] at h
      obtain ⟨⟨s, r⟩, h1, rfl⟩ := h
      obtain ⟨hpos, ⟨-, rfl, -⟩ | ⟨block, p, -, hal, -⟩⟩ := allocate_inv h1
      · exact ht
      · exact allocator_tiled hs ht hpos hn hal hcons
    · rw [if_neg hn] at h
      simp at h
  | deallocate p => exact deallocate_tiled hs ht h hcons
  | compact_allocation => exact absurd hcons (by simp [conserving])

theorem run_conserving_tiled (calls : List Call) : ∀ (st st1 : Myalloc),
    Sized st → Tiled st → run_conserving st calls = some st1 →
    Tiled st1 ∧ st1.size = st.size := by
  induction calls with
  | nil =>
    intro st st1 hs ht h
    simp only [run_conserving, Option.some.injEq] at h
    subst h
    exact ⟨ht, rfl⟩
  | cons c cs ih =>
    intro st st1 hs ht h
    simp only [run_conserving] at h
    rw [Option.bind_eq_some] at h
    obtain ⟨st2, h2, h3⟩ := h
    by_cases hc : conserving st c st2
    · rw [if_pos hc] at h3
      obtain ⟨h4, h5⟩ := ih st2 st1 (step_sized hs h2) (step_conserving_tiled hs ht h2 hc) h3
      exact ⟨h4, h5.trans (step_size h2)⟩
    · rw [if_neg hc] at h3
      simp at h3

theorem run_conserving_run (calls : List Call) : ∀ (st st1 : Myalloc),
    run_conserving st calls = some st1 → run st calls = some st1 := by
  induction calls with
  | nil => intro st st1 h; exact h
  | cons c cs ih =>
    intro st st1 h
    simp only [run_conserving] at h
    rw [Option.bind_eq_some] at h
    obtain ⟨st2, h2, h3⟩ := h
    by_cases hc : conserving st c st2
    · rw [if_pos hc] at h3
      simp only [run, h2, Option.some_bind]
      exact ih st2 st1 h3
    · rw [if_neg hc] at h3
      simp at h3

theorem tiled_total {st : Myalloc} (ht : Tiled st) :
    (∀ b ∈ st.free ++ st.allocated, (header st b.size).isSome = true) ∧
    total_size st = st.size := by
  obtain ⟨l, hperm, htiles⟩ := ht
  obtain ⟨h1, h2⟩ := tiles_sum htiles
  constructor
  · intro b hb
    exact h2 b (hperm.symm.subset hb)
  · unfold total_size header
    rw [← (hperm.map _).sum_eq, h1]
    omega

/-! ## The searches of `allocate` -/

theorem first_fit_skip {m : List Nat} {n : Int} {pre rest : List memoryBlock}
    (hpre : ∀ x ∈ pre, ∃ h, List_getSize m (x.size - HEADER_SIZE) = some h ∧ toInt h < n) :
    first_fit m n (pre ++ rest) = first_fit m n rest := by
  induction pre with
  | nil => rfl
  | cons a t ih =>
    obtain ⟨h, hh, hlt⟩ := hpre a (List.mem_cons_self _ _)
    simp only [List.cons_append, first_fit, List_getSizeInt, hh, Option.map_some',
      Option.bind_eq_bind, Option.some_bind]
    rw [if_neg (by omega)]
    exact ih (fun x hx => hpre x (List.mem_cons_of_mem _ hx))

theorem worst_fit_skip {m : List Nat} {n : Int} {l : List memoryBlock}
    (fragment_size : Int) (temp_block : Option memoryBlock)
    (hl : ∀ x ∈ l, ∃ h, List_getSize m (x.size - HEADER_SIZE) = some h ∧ h < toSizeT n) :
    worst_fit m n l fragment_size temp_block = some temp_block := by
  induction l with
  | nil => rfl
  | cons a t ih =>
    obtain ⟨h, hh, hlt⟩ := hl a (List.mem_cons_self _ _)
    simp only [worst_fit, hh, Option.bind_eq_bind, Option.some_bind]
    rw [if_neg (by omega)]
    exact ih (fun x hx => hl x (List.mem_cons_of_mem _ hx))

theorem best_fit_skip {m : List Nat} {n : Int} {l : List memoryBlock}
    (fragment_size : Int) (temp_block : Option memoryBlock)
    (hl : ∀ x ∈ l, ∃ h, List_getSize m (x.size - HEADER_SIZE) = some h ∧ h < toSizeT n) :
    best_fit m n l fragment_size temp_block = some temp_block := by
  induction l with
  | nil => rfl
  | cons a t ih =>
    obtain ⟨h, hh, hlt⟩ := hl a (List.mem_cons_self _ _)
    simp only [best_fit, hh, Option.bind_eq_bind, Option.some_bind]
    rw [if_neg (by omega)]
    exact ih (fun x hx => hl x (List.mem_cons_of_mem _ hx))

theorem first_split {α : Type} (p : α → Prop) [DecidablePred p] (l : List α)
    (h : ∃ x ∈ l, p x) :
    ∃ pre b post, l = pre ++ b :: post ∧ p b ∧ ∀ y ∈ pre, ¬ p y := by
  induction l with
  | nil => simp at h
  | cons a t ih =>
    by_cases ha : p a
    · exact ⟨[], a, t, rfl, ha, by simp⟩
    · obtain ⟨x, hx, hpx⟩ := h
      rcases List.mem_cons.1 hx with rfl | hx
      · exact absurd hpx ha
      · obtain ⟨pre, b, post, h1, h2, h3⟩ := ih ⟨x, hx, hpx⟩
        refine ⟨a :: pre, b, post, by rw [h1]; rfl, h2, ?_⟩
        intro y hy
        rcases List.mem_cons.1 hy with rfl | hy
        · exact ha
        · exact h3 y hy

/-! ## Headers of the descriptors in reachable states -/

theorem insert_mem {head : List memoryBlock} {chunk x : memoryBlock}
    (h : x ∈ List_insertBlock head chunk) : x = chunk ∨ x ∈ head :=
  List.mem_cons.1 ((insert_perm head chunk).subset h)

theorem unlink_mem {chunk x : memoryBlock} {l l1 : List memoryBlock}
    (h : List_unlink chunk l = some l1) (hx : x ∈ l1) : x ∈ l :=
  (unlink_sublist h).subset hx

theorem unlink_chunk_mem {chunk : memoryBlock} {l l1 : List memoryBlock}
    (h : List_unlink chunk l = some l1) : chunk ∈ l :=
  (unlink_perm h).symm.subset (List.mem_cons_self _ _)

theorem header_readable {st : Myalloc} (h : HeadersInBuffer st) {b : memoryBlock}
    (hb : b ∈ st.free ++ st.allocated) : (header st b.size).isSome = true := by
  obtain ⟨h1, h2⟩ := h b hb
  unfold header List_getSize HEADER_SIZE
  rw [if_pos ⟨by omega, by omega⟩]
  rfl

theorem init_headers {_size beyond : Int} {alg : allocation_algorithm} {st0 : Myalloc}
    (hi : IsInt _size) (h : initialize_allocator _size alg beyond = some st0) :
    HeadersInBuffer st0 := by
  have hs := init_sized hi h
  have hsz := init_size h
  obtain ⟨m, h1, -, -, hlen⟩ := initialize_allocator_some _size beyond alg hi (hsz ▸ hs.2.1)
  rw [h1, Option.some.injEq] at h
  subst h
  intro b hb
  simp only [List.append_nil, List.mem_singleton] at hb
  subst hb
  have := hs.2.1
  simp only [List_createBlock] at *
  omega

theorem step_headers {st st1 : Myalloc} {call : Call} (hs : Sized st)
    (hb : HeadersInBuffer st) (h : step st call = some st1) : HeadersInBuffer st1 := by
  obtain ⟨hi, h8, hl⟩ := hs
  rcases step_inv h with ⟨n, r, -, ha⟩ | ⟨p, hd⟩ | ⟨r, hc⟩
  · obtain ⟨-, ⟨-, rfl, -⟩ | ⟨block, p, -, hal, -⟩⟩ := allocate_inv ha
    · exact hb
    · obtain ⟨s, -, -, hall, -, -, -, hcase⟩ := allocator_inv hal
      have key : st1.memory.length = st.memory.length ∧
          ∀ x ∈ block :: st1.free, 8 ≤ x.size ∧ x.size ≤ st.memory.length := by
        rcases hcase with ⟨-, m1, hm1, hu, hm2⟩ | ⟨-, hu, hm2⟩
        · refine ⟨by rw [storeSize_length hm2, storeSize_length hm1], ?_⟩
          have hbd := storeSize_bounds hm1
          intro x hx
          have hx1 : x ∈ List_insertBlock st.free
              (List_createBlock (block.size + n + HEADER_SIZE)) := by
            rcases List.mem_cons.1 hx with rfl | hx
            · exact unlink_chunk_mem hu
            · exact unlink_mem hu hx
          rcases insert_mem hx1 with rfl | hx2
          · simp only [List_createBlock, HEADER_SIZE]
            have hx3 : block ∈ List_insertBlock st.free
                (List_createBlock (block.size + n + HEADER_SIZE)) := unlink_chunk_mem hu
            omega
          · exact hb x (List.mem_append_left _ hx2)
        · refine ⟨storeSize_length hm2, ?_⟩
          intro x hx
          have hx1 : x ∈ st.free := by
            rcases List.mem_cons.1 hx with rfl | hx
            · exact unlink_chunk_mem hu
            · exact unlink_mem hu hx
          exact hb x (List.mem_append_left _ hx1)
      intro x hx
      rw [key.1]
      rcases List.mem_append.1 hx with hx | hx
      · exact key.2 x (List.mem_cons_of_mem _ hx)
      · rw [hall] at hx
        rcases insert_mem hx with rfl | hx
        · exact key.2 x (List.mem_cons_self _ _)
        · exact hb x (List.mem_append_right _ hx)
  · obtain ⟨chunk, allocated, st2, current, after, hfind, hu, hst2, hfree, hm, hal, -⟩ :=
      deallocate_inv hd
    have hlen1 := merge_loop_length _ _ _ _ _ _ hm
    have hsub := merge_loop_sublist _ _ _ _ _ _ hm
    simp only [List.nil_append] at hsub hlen1
    rw [← hfree] at hsub
    have h2 : HeadersInBuffer st2 := by
      by_cases he : allocated = []
      · rw [if_pos he] at hst2
        obtain ⟨m, h1, -, -, hmlen⟩ := init_free_memory_some
          { st with allocated := allocated, free := [] } ⟨hi, h8, hl⟩
        rw [h1, Option.some.injEq] at hst2
        subst hst2
        intro x hx
        simp only [he, List_insertBlock, List.append_nil, List.mem_singleton] at hx
        subst hx
        simp only [List_createBlock, HEADER_SIZE] at *
        omega
      · rw [if_neg he] at hst2
        simp only [Option.some.injEq] at hst2
        subst hst2
        intro x hx
        simp only at hx ⊢
        rcases List.mem_append.1 hx with hx | hx
        · rcases insert_mem hx with rfl | hx
          · exact hb x (List.mem_append_right _ (unlink_chunk_mem hu))
          · exact hb x (List.mem_append_left _ hx)
        · exact hb x (List.mem_append_right _ (unlink_mem hu hx))
    intro x hx
    rw [hlen1]
    rcases List.mem_append.1 hx with hx | hx
    · exact h2 x (List.mem_append_left _ (hsub.subset hx))
    · rw [hal] at hx
      exact h2 x (List.mem_append_right _ hx)
  · obtain ⟨hm, hf, ha, -⟩ := compact_allocation_inv hc
    intro x hx
    rw [storeSize_length hm]
    rw [hf, ha] at hx
    rcases List.mem_append.1 hx with hx | hx
    · rcases insert_mem hx with rfl | hx
      · simp only [List_createBlock, HEADER_SIZE]
        omega
      · exact hb x (List.mem_append_left _ hx)
    · exact hb x (List.mem_append_right _ hx)

theorem reachable_headers {st : Myalloc} (h : Reachable st) : HeadersInBuffer st :=
  (reachable_induction (fun s => Sized s ∧ HeadersInBuffer s)
    (fun _ _ _ _ hi h0 => ⟨init_sized hi h0, init_headers hi h0⟩)
    (fun _ _ _ hs hstep => ⟨step_sized hs.1 hstep, step_headers hs.1 hs.2 hstep⟩) st h).2

/-! ## Statistics -/

theorem statistics_allocated_some (m : List Nat) (l : List memoryBlock) :
    ∀ (stats : Stats),
    (∀ b ∈ l, (List_getSize m (b.size - HEADER_SIZE)).isSome = true) →
    ∃ stats1, statistics_allocated m l stats = some stats1 ∧
      stats1.free_size = stats.free_size ∧ stats1.free_chunks = stats.free_chunks ∧
      stats1.smallest_free_chunk_size = stats.smallest_free_chunk_size ∧
      stats1.largest_free_chunk_size = stats.largest_free_chunk_size := by
  induction l with
  | nil => intro stats _; exact ⟨stats, rfl, rfl, rfl, rfl, rfl⟩
  | cons a t ih =>
    intro stats hread
    obtain ⟨v, hv⟩ := Option.isSome_iff_exists.1 (hread a (List.mem_cons_self _ _))
    obtain ⟨s1, h1, h2, h3, h4, h5⟩ := ih
      { stats with allocated_size := toInt (stats.allocated_size + toInt v),
                   allocated_chunks := toInt (stats.allocated_chunks + 1) }
      (fun b hb => hread b (List.mem_cons_of_mem _ hb))
    refine ⟨s1, ?_, h2, h3, h4, h5⟩
    simp only [statistics_allocated, List_getSizeInt, hv, Option.map_some', Option.bind_eq_bind,
      Option.some_bind]
    exact h1

theorem statistics_free_some (m : List Nat) (l : List memoryBlock) :
    ∀ (stats : Stats),
    (∀ b ∈ l, (List_getSize m (b.size - HEADER_SIZE)).isSome = true) →
    ∃ stats1, statistics_free m l stats = some stats1 := by
  induction l with
  | nil => intro stats _; exact ⟨stats, rfl⟩
  | cons a t ih =>
    intro stats hread
    obtain ⟨v, hv⟩ := Option.isSome_iff_exists.1 (hread a (List.mem_cons_self _ _))
    simp only [statistics_free, List_getSizeInt, hv, Option.map_some', Option.bind_eq_bind,
      Option.some_bind]
    exact ih _ (fun b hb => hread b (List.mem_cons_of_mem _ hb))

theorem statistics_allocated_fields (m : List Nat) (l : List memoryBlock) :
    ∀ (stats stats1 : Stats), statistics_allocated m l stats = some stats1 →
      stats1.free_size = stats.free_size ∧ stats1.free_chunks = stats.free_chunks ∧
      stats1.smallest_free_chunk_size = stats.smallest_free_chunk_size ∧
      stats1.largest_free_chunk_size = stats.largest_free_chunk_size := by
  induction l with
  | nil =>
    intro stats stats1 h
    simp only [statistics_allocated, Option.some.injEq] at h
    subst h
    exact ⟨rfl, rfl, rfl, rfl⟩
  | cons a t ih =>
    intro stats stats1 h
    simp only [statistics_allocated, Option.bind_eq_bind] at h
    rw [Option.bind_eq_some] at h
    obtain ⟨v, -, h⟩ := h
    have key := ih _ _ h
    exact key

theorem get_statistics_inv {st : Myalloc} {stats : Stats} (h : get_statistics st = some stats) :
    ∃ stats1, statistics_free st.memory st.free stats1 = some stats ∧
      stats1.free_size = 0 ∧ stats1.free_chunks = 0 ∧
      stats1.smallest_free_chunk_size = st.size ∧ stats1.largest_free_chunk_size = 0 := by
  unfold get_statistics at h
  simp only [Option.bind_eq_bind] at h
  rw [Option.bind_eq_some] at h
  obtain ⟨s1, h1, h2⟩ := h
  obtain ⟨e1, e2, e3, e4⟩ := statistics_allocated_fields _ _ _ _ h1
  exact ⟨s1, h2, e1, e2, e3, e4⟩

theorem get_statistics_some (st : Myalloc)
    (hfree : ∀ b ∈ st.free, (header st b.size).isSome = true)
    (halloc : ∀ b ∈ st.allocated, (header st b.size).isSome = true) :
    ∃ stats, get_statistics st = some stats := by
  obtain ⟨s1, h1, -⟩ := statistics_allocated_some st.memory st.allocated
    { allocated_size := 0, allocated_chunks := 0, free_size := 0, free_chunks := 0,
      largest_free_chunk_size := 0, smallest_free_chunk_size := st.size } halloc
  obtain ⟨s2, h2⟩ := statistics_free_some st.memory st.free s1 hfree
  refine ⟨s2, ?_⟩
  unfold get_statistics
  simp only [Option.bind_eq_bind, h1, Option.some_bind, h2]

/-! ## Insertion with node identity -/

theorem List_insertBlock_walk_eq_keyed (chunk : memoryBlock) (l : List memoryBlock) :
    List_insertBlock_walk chunk l = List_insertBlock_walk_keyed memoryBlock.size chunk l := by
  induction l with
  | nil => rfl
  | cons a t ih => simp only [List_insertBlock_walk, List_insertBlock_walk_keyed, ih]

theorem List_insertBlock_eq_keyed (head : List memoryBlock) (chunk : memoryBlock) :
    List_insertBlock head chunk = List_insertBlock_keyed memoryBlock.size head chunk := by
  cases head with
  | nil => rfl
  | cons a t =>
    simp only [List_insertBlock, List_insertBlock_keyed, List_insertBlock_walk_eq_keyed]

theorem walk_keyed_split {α : Type} (key : α → Int) (chunk : α) (l : List α)
    (hs : l.Pairwise (fun a b => key a ≤ key b)) :
    ∃ pre post, l = pre ++ post ∧
      List_insertBlock_walk_keyed key chunk l = pre ++ chunk :: post ∧
      (∀ x ∈ pre, key x < key chunk) ∧ (∀ y ∈ post, key chunk ≤ key y) := by
  induction l with
  | nil => exact ⟨[], [], rfl, rfl, by simp, by simp⟩
  | cons a t ih =>
    rw [List.pairwise_cons] at hs
    by_cases hlt : key a < key chunk
    · obtain ⟨pre, post, h1, h2, h3, h4⟩ := ih hs.2
      refine ⟨a :: pre, post, by rw [h1]; rfl, ?_, ?_, h4⟩
      · simp only [List_insertBlock_walk_keyed, if_pos hlt, h2, List.cons_append]
      · intro x hx
        rcases List.mem_cons.1 hx with rfl | hx
        · exact hlt
        · exact h3 x hx
    · refine ⟨[], a :: t, rfl, ?_, by simp, ?_⟩
      · simp only [List_insertBlock_walk_keyed, if_neg hlt, List.nil_append]
      · intro y hy
        rcases List.mem_cons.1 hy with rfl | hy
        · omega
        · have := hs.1 y hy
          omega

/-! ## The coalescing loop on well-formed free lists -/

theorem getSize_some (m : List Nat) (a : Int) (h0 : 0 ≤ a) (h1 : a + 8 ≤ m.length) :
    ∃ v, List_getSize m a = some v := by
  unfold List_getSize
  rw [if_pos ⟨h0, h1⟩]
  exact ⟨_, rfl⟩

theorem unlink_some {chunk : memoryBlock} {l : List memoryBlock} (h : chunk ∈ l) :
    ∃ l1, List_unlink chunk l = some l1 := by
  induction l with
  | nil => simp at h
  | cons a t ih =>
    by_cases hc : a = chunk
    · exact ⟨t, by simp [List_unlink, hc]⟩
    · rcases List.mem_cons.1 h with rfl | ht
      · exact absurd rfl hc
      · obtain ⟨l1, h1⟩ := ih ht
        exact ⟨a :: l1, by simp [List_unlink, hc, h1]⟩

theorem merge_loop_some (fuel : Nat) : ∀ (m : List Nat) (before : List memoryBlock)
    (current : memoryBlock) (after : List memoryBlock),
    before.length + 2 * after.length < fuel →
    (∀ b ∈ before ++ current :: after, 8 ≤ b.size ∧ b.size ≤ m.length) →
    (before ++ current :: after).Nodup →
    ∃ r, merge_loop fuel m before current after = some r := by
  induction fuel with
  | zero => intro m b c a h; omega
  | succ n ih =>
    intro m b c a hfuel hbuf hnd
    cases a with
    | nil => exact ⟨_, rfl⟩
    | cons nxt rest =>
      have hcb := hbuf c (by simp)
      have hnb := hbuf nxt (by simp)
      obtain ⟨hc, hhc⟩ := getSize_some m (c.size - HEADER_SIZE)
        (by unfold HEADER_SIZE; omega) (by unfold HEADER_SIZE; omega)
      obtain ⟨hn, hhn⟩ := getSize_some m (nxt.size - HEADER_SIZE)
        (by unfold HEADER_SIZE; omega) (by unfold HEADER_SIZE; omega)
      obtain ⟨m1, hm1⟩ := storeSize_some m (c.size - HEADER_SIZE) (toSizeT (hc + hn))
        (by unfold HEADER_SIZE; omega) (by unfold HEADER_SIZE; omega)
      have hlen := storeSize_length hm1
      simp only [List.length_cons] at hfuel
      simp only [merge_loop, hhc, Option.bind_eq_bind, Option.some_bind]
      by_cases hadj : c.size + toSizeT (hc + toSizeT HEADER_SIZE) = nxt.size
      · rw [if_pos hadj]
        simp only [hhn, hm1, Option.some_bind]
        have hbuf1 : ∀ x ∈ b ++ c :: nxt :: rest, 8 ≤ x.size ∧ x.size ≤ m1.length := by
          intro x hx
          rw [hlen]
          exact hbuf x hx
        cases hf : List_findBlock b nxt.size with
        | some found =>
          exfalso
          obtain ⟨hfm, hfs⟩ := findBlock_mem hf
          have hfe : found = nxt := by
            cases found; cases nxt; simp only [memoryBlock.mk.injEq]; exact hfs
          rw [hfe] at hfm
          rw [List.nodup_append] at hnd
          exact hnd.2.2 hfm (by simp)
        | none =>
          have hne : c.size ≠ nxt.size := by
            intro he
            have hce : c = nxt := by
              cases c; cases nxt; simp only [memoryBlock.mk.injEq]; exact he
            rw [hce] at hnd
            have := (List.nodup_append.1 hnd).2.1
            simp at this
          simp only [if_neg hne]
          apply ih m1 b c rest (by omega)
          · intro x hx
            apply hbuf1 x
            rcases List.mem_append.1 hx with hx | hx
            · exact List.mem_append_left _ hx
            · rcases List.mem_cons.1 hx with rfl | hx
              · simp
              · simp [hx]
          · have hsub : List.Sublist (b ++ c :: rest) (b ++ c :: nxt :: rest) :=
              List.Sublist.append (List.Sublist.refl _)
                ((List.sublist_cons_self _ _).cons₂ _)
            exact hnd.sublist hsub
      · rw [if_neg hadj]
        apply ih m (b ++ [c]) nxt rest
        · simp only [List.length_append, List.length_cons, List.length_nil]; omega
        · intro x hx
          apply hbuf x
          simpa using hx
        · simpa using hnd

theorem deallocate_eq {st st2 : Myalloc} {_ptr : Int} {chunk current : memoryBlock}
    {allocated after f : List memoryBlock} {m : List Nat}
    (hfind : List_findBlock st.allocated _ptr = some chunk)
    (hu : List_unlink chunk st.allocated = some allocated)
    (hst2 : (if allocated = [] then
          init_free_memory { st with allocated := allocated, free := [] }
        else some { st with allocated := allocated, free := List_insertBlock st.free chunk }) =
        some st2)
    (hfree : st2.free = current :: after)
    (hm : merge_loop (2 * st2.free.length) st2.memory [] current after = some (m, f)) :
    deallocate st _ptr = some { st2 with memory := m, free := f } := by
  unfold deallocate
  simp only [hfind, List_deleteBlock, hu, Option.bind_eq_bind, Option.some_bind, List_destroy]
  by_cases he : allocated = []
  · rw [if_pos he] at hst2
    rw [if_pos he, hst2, Option.some_bind]
    rw [hfree] at hm ⊢
    simp only [hm, Option.some_bind]
  · rw [if_neg he] at hst2
    rw [if_neg he]
    simp only [Option.some.injEq] at hst2
    subst hst2
    simp only at hfree hm
    rw [hfree] at hm ⊢
    simp only [hm, Option.some_bind]

theorem deallocate_some_insert {st : Myalloc} {_ptr : Int} {chunk : memoryBlock}
    (hs : Sized st) (hb : HeadersInBuffer st)
    (hnd1 : (List_insertBlock st.free chunk).Nodup)
    (hfind : List_findBlock st.allocated _ptr = some chunk) :
    ∃ st1, deallocate st _ptr = some st1 := by
  obtain ⟨hcm, -⟩ := findBlock_mem hfind
  obtain ⟨allocated, hu⟩ := unlink_some hcm
  by_cases he : allocated = []
  · obtain ⟨m, h1, -, -, -⟩ := init_free_memory_some
      { st with allocated := allocated, free := [] } hs
    exact ⟨_, @deallocate_eq st
      (Myalloc.mk st.aalgorithm st.size m allocated [List_createBlock (0 + HEADER_SIZE)]
        st.beyond_size) _ptr chunk (List_createBlock (0 + HEADER_SIZE)) allocated []
      [List_createBlock (0 + HEADER_SIZE)] m hfind hu (by rw [if_pos he]; exact h1) rfl rfl⟩
  · have hperm := insert_perm st.free chunk
    have hbuf : ∀ b ∈ List_insertBlock st.free chunk,
        8 ≤ b.size ∧ b.size ≤ st.memory.length := by
      intro b hbm
      rcases insert_mem hbm with rfl | hbm
      · exact hb b (List.mem_append_right _ hcm)
      · exact hb b (List.mem_append_left _ hbm)
    cases hl : List_insertBlock st.free chunk with
    | nil =>
      have := hperm.length_eq
      rw [hl] at this
      simp at this
    | cons current after =>
      rw [hl] at hnd1 hbuf
      obtain ⟨r, hr⟩ := merge_loop_some (2 * (current :: after).length) st.memory [] current
        after (by simp only [List.length_nil, List.length_cons]; omega)
        (by simpa using hbuf) (by simpa using hnd1)
      exact ⟨_, @deallocate_eq st
        (Myalloc.mk st.aalgorithm st.size st.memory allocated (List_insertBlock st.free chunk)
          st.beyond_size) _ptr chunk current allocated after r.2 r.1
        hfind hu (by rw [if_neg he]) hl (by simp only [hl]; exact hr)⟩

theorem deallocate_some {st : Myalloc} {_ptr : Int} {chunk : memoryBlock}
    (hs : Sized st) (hb : HeadersInBuffer st) (hnd : (st.free ++ st.allocated).Nodup)
    (hfind : List_findBlock st.allocated _ptr = some chunk) :
    ∃ st1, deallocate st _ptr = some st1 := by
  refine deallocate_some_insert hs hb ?_ hfind
  rw [(insert_perm st.free chunk).nodup_iff, List.nodup_cons]
  rw [List.nodup_append] at hnd
  exact ⟨fun hin => hnd.2.2 hin (findBlock_mem hfind).1, hnd.1⟩

theorem reachable_sorted {st : Myalloc} (h : Reachable st) :
    SortedByKey st.free ∧ SortedByKey st.allocated :=
  reachable_induction (fun s => SortedByKey s.free ∧ SortedByKey s.allocated)
    (fun _ _ _ _ _ h0 => init_sorted h0) (fun _ _ _ hs hstep => step_sorted hs hstep) st h

theorem mergeable_frame {m m1 : List Nat} {c : memoryBlock} {v : Int} {x y : memoryBlock}
    (hm1 : storeSize m (c.size - HEADER_SIZE) v = some m1) (hy : y.size ≤ c.size)
    (h : mergeable m1 x y) : mergeable m x y := by
  obtain ⟨s, hs, hxy⟩ := h
  have h0 := getSize_nonneg hs
  refine ⟨s, ?_, hxy⟩
  rw [← getSize_store_other (x.size - HEADER_SIZE) hm1 (Or.inl (by unfold HEADER_SIZE at *; omega))]
  exact hs

theorem chain_frame {m m1 : List Nat} {c : memoryBlock} {v : Int} {l : List memoryBlock}
    (hm1 : storeSize m (c.size - HEADER_SIZE) v = some m1) (hl : ∀ y ∈ l, y.size ≤ c.size)
    (h : List.Chain' (fun a b => ¬ mergeable m a b) l) :
    List.Chain' (fun a b => ¬ mergeable m1 a b) l :=
  (List.Chain'.iff_mem.1 h).imp
    (fun _ y hxy hadj => hxy.2.2 (mergeable_frame hm1 (hl y hxy.2.1) hadj))

theorem concat_all_eq {c : memoryBlock} {t : List memoryBlock} (h : ∀ y ∈ t, y = c) :
    t ++ [c] = c :: t := by
  induction t with
  | nil => rfl
  | cons a t ih =>
    have ha : a = c := h a (List.mem_cons_self _ _)
    subst ha
    rw [List.cons_append, ih (fun y hy => h y (List.mem_cons_of_mem _ hy))]

theorem unlink_sorted_concat {c : memoryBlock} {l l1 : List memoryBlock}
    (hs : SortedByKey (l ++ [c])) (h : List_unlink c l = some l1) : l1 ++ [c] = l := by
  induction l generalizing l1 with
  | nil => simp [List_unlink] at h
  | cons a t ih =>
    unfold SortedByKey at hs
    rw [List.cons_append, List.pairwise_cons] at hs
    by_cases hc : a = c
    · simp only [List_unlink, if_pos hc, Option.some.injEq] at h
      subst h
      subst hc
      apply concat_all_eq
      intro y hy
      have h1 := hs.1 y (List.mem_append_left _ hy)
      have h2 := (List.pairwise_append.1 hs.2).2.2 y hy a (by simp)
      cases y
      cases a
      simp only [memoryBlock.mk.injEq] at *
      omega
    · simp only [List_unlink, if_neg hc, Option.map_eq_some'] at h
      obtain ⟨l2, hl2, rfl⟩ := h
      rw [List.cons_append, ih hs.2 hl2]

theorem merge_loop_coalesced (fuel : Nat) : ∀ (m : List Nat) (before : List memoryBlock)
    (current : memoryBlock) (after : List memoryBlock) (r : List Nat × List memoryBlock),
    merge_loop fuel m before current after = some r →
    SortedByKey (before ++ current :: after) →
    (∀ b ∈ before ++ current :: after, 8 ≤ b.size ∧ b.size < 2 ^ 63) →
    List.Chain' (fun a b => ¬ mergeable m a b) (before ++ [current]) →
    List.Chain' (fun a b => ¬ mergeable r.1 a b) r.2 := by
  induction fuel with
  | zero => intro m b c a r h; simp [merge_loop] at h
  | succ n ih =>
    intro m b c a r h hso hbd hch
    cases a with
    | nil =>
      simp only [merge_loop, Option.some.injEq] at h
      subst h
      exact hch
    | cons nxt rest =>
      have hle : ∀ y ∈ b ++ [c], y.size ≤ c.size := by
        intro y hy
        rcases List.mem_append.1 hy with hy | hy
        · exact (List.pairwise_append.1 hso).2.2 y hy c (by simp)
        · simp only [List.mem_singleton] at hy
          rw [hy]
      have hcn : c.size ≤ nxt.size := by
        have := (List.pairwise_append.1 hso).2.1
        rw [List.pairwise_cons] at this
        exact this.1 nxt (by simp)
      obtain ⟨hc, hhc, ⟨hadj, hn, m1, -, hm1, ⟨found, b1, hf, hu, hr⟩ | ⟨-, -, hr⟩⟩ | ⟨hadj, hr⟩⟩ :=
        merge_loop_cons_inv h
      · obtain ⟨hfm, hfs⟩ := findBlock_mem hf
        have hfc : found = c := by
          have h1 := hle found (List.mem_append_left _ hfm)
          cases found
          cases c
          simp only [memoryBlock.mk.injEq] at *
          omega
        subst hfc
        have hsub : List.Sublist (b1 ++ found :: nxt :: rest) (b ++ found :: nxt :: rest) :=
          List.Sublist.append (unlink_sublist hu) (List.Sublist.refl _)
        have hsb : SortedByKey (b ++ [found]) := by
          have : List.Sublist (b ++ [found]) (b ++ found :: nxt :: rest) :=
            List.Sublist.append (List.Sublist.refl _)
              ((List.nil_sublist _).cons₂ _)
          exact List.Pairwise.sublist this hso
        have heq := unlink_sorted_concat hsb hu
        refine ih m1 b1 found (nxt :: rest) r hr (List.Pairwise.sublist hsub hso)
          (fun x hx => hbd x (hsub.subset hx)) ?_
        rw [heq]
        have hb : List.Chain' (fun a b => ¬ mergeable m a b) b :=
          (List.chain'_append.1 hch).1
        exact chain_frame hm1 (fun y hy => hle y (List.mem_append_left _ hy)) hb
      · have hsub : List.Sublist (b ++ c :: rest) (b ++ c :: nxt :: rest) :=
          List.Sublist.append (List.Sublist.refl _) ((List.sublist_cons_self _ _).cons₂ _)
        exact ih m1 b c rest r hr (List.Pairwise.sublist hsub hso)
          (fun x hx => hbd x (hsub.subset hx)) (chain_frame hm1 hle hch)
      · refine ih m (b ++ [c]) nxt rest r hr (by simpa using hso) (by simpa using hbd) ?_
        rw [List.append_assoc, List.singleton_append, List.chain'_append_cons_cons]
        refine ⟨hch, ?_, List.chain'_singleton _⟩
        rintro ⟨v, hv, hv2⟩
        rw [hhc, Option.some.injEq] at hv
        subst hv
        apply hadj
        have h0 := getSize_nonneg hhc
        have hn1 := (hbd nxt (by simp)).2
        have hc1 := (hbd c (by simp)).1
        unfold toSizeT HEADER_SIZE at *
        have e1 : (8 : Int) % 18446744073709551616 = 8 := by norm_num
        have e2 : (hc + 8) % 18446744073709551616 = hc + 8 :=
          Int.emod_eq_of_lt (by omega) (by omega)
        rw [e1, e2]
        omega

theorem findBlock_some {l : List memoryBlock} {p : Int} (h : ∃ b ∈ l, b.size = p) :
    ∃ chunk, List_findBlock l p = some chunk := by
  cases hf : List_findBlock l p with
  | some c => exact ⟨c, rfl⟩
  | none =>
    exfalso
    obtain ⟨b, hb, hp⟩ := h
    induction l with
    | nil => simp at hb
    | cons a t ih =>
      by_cases ha : a.size = p
      · simp [List_findBlock, ha] at hf
      · simp only [List_findBlock, if_neg ha] at hf
        rcases List.mem_cons.1 hb with rfl | hb
        · exact ha hp
        · exact ih hf hb

theorem deallocate_coalesced {st st1 : Myalloc} {_ptr : Int} (hs : Sized st)
    (hb : HeadersInBuffer st) (hso : SortedByKey st.free)
    (h : deallocate st _ptr = some st1) :
    List.Chain' (fun a b => ¬ mergeable st1.memory a b) st1.free := by
  obtain ⟨chunk, allocated, st2, current, after, hfind, hu, hst2, hfree, hm, -⟩ :=
    deallocate_inv h
  obtain ⟨hi, h8, hl⟩ := hs
  unfold IsInt at hi
  have h2 : SortedByKey st2.free ∧ ∀ b ∈ st2.free, 8 ≤ b.size ∧ b.size < 2 ^ 63 := by
    by_cases he : allocated = []
    · rw [if_pos he] at hst2
      obtain ⟨z, -, -, hf2, -⟩ := init_free_memory_inv hst2
      rw [hf2]
      refine ⟨insert_sorted _ List.Pairwise.nil, ?_⟩
      intro b hbm
      rcases insert_mem hbm with rfl | hbm
      · simp [List_createBlock, HEADER_SIZE]
      · simp at hbm
    · rw [if_neg he] at hst2
      simp only [Option.some.injEq] at hst2
      subst hst2
      refine ⟨insert_sorted _ hso, ?_⟩
      intro b hbm
      have hmem : b ∈ st.free ++ st.allocated := by
        rcases insert_mem hbm with rfl | hbm
        · exact List.mem_append_right _ (findBlock_mem hfind).1
        · exact List.mem_append_left _ hbm
      have := hb b hmem
      exact ⟨this.1, by omega⟩
  rw [hfree] at h2
  exact merge_loop_coalesced _ st2.memory [] current after (st1.memory, st1.free) hm
    h2.1 h2.2 (List.chain'_singleton _)

/-! ## The first allocation -/

/-- The first allocation without overflow: for every capacity `c` (an `int`), every
policy and every `n > 0` with `n + 8 + 1 <= c - 8`, and with `n + c <= INT_MAX` under
`BEST_FIT` (so that its bound `_size + fragment_size` does not overflow): after
`initialize_allocator(c, policy)` the free list is one block at payload offset 8 with
header `c - 8`, and `allocate(n)` then returns payload offset 8, sets the allocated
block's header to exactly `n`, leaves exactly one free block, whose payload size is
`c - 8 - n - 8`, and `available_memory()` returns `c - 16 - n`. -/
theorem initialize_then_allocate (c n beyond : Int) (alg : allocation_algorithm)
    (hc : IsInt c) (hn : 0 < n) (hfit : n + 8 + 1 ≤ c - 8)
    (hbest : alg = BEST_FIT → n + c < 2147483648) :
    ∃ st0 st1, initialize_allocator c alg beyond = some st0 ∧
      st0.free = [⟨8⟩] ∧ st0.allocated = [] ∧ header st0 8 = some (c - 8) ∧
      allocate st0 n = some (st1, some 8) ∧
      st1.allocated = [⟨8⟩] ∧ header st1 8 = some n ∧
      (∃ p, st1.free = [⟨p⟩] ∧ header st1 p = some (c - 8 - n - 8)) ∧
      available_memory st1 = some (c - 16 - n) := by
  obtain ⟨m0, hinit, h0, hz, hlen⟩ := initialize_allocator_some c beyond alg hc (by omega)
  have hsel := select_block_initial c n beyond alg m0 hc hn hfit hbest h0
    (hz 8 (le_refl _) (by omega))
  unfold IsInt at hc
  have t2 : toSizeT n = n := by unfold toSizeT; omega
  have t3 : toSizeT (toInt (n + HEADER_SIZE)) = n + 8 := by
    unfold toSizeT toInt HEADER_SIZE; omega
  have t4 : toSizeT (toSizeT (toSizeT (c - 8 - toSizeT n) - toSizeT HEADER_SIZE)) =
      c - 8 - n - 8 := by
    unfold toSizeT HEADER_SIZE; omega
  have t5 : toSizeT (toSizeT (toSizeT n + 0)) = n := by unfold toSizeT; omega
  have e0 : (List_createBlock 8).size - HEADER_SIZE = 0 := by
    simp [List_createBlock, HEADER_SIZE]
  obtain ⟨m1, hm1⟩ := storeSize_some m0 ((List_createBlock 8).size + n)
    (toSizeT (toSizeT (c - 8 - toSizeT n) - toSizeT HEADER_SIZE))
    (by simp only [List_createBlock]; omega) (by simp only [List_createBlock]; omega)
  obtain ⟨m2, hm2⟩ := storeSize_some m1 ((List_createBlock 8).size - HEADER_SIZE)
    (toSizeT (toSizeT n + 0)) (by rw [e0]) (by rw [e0, storeSize_length hm1]; omega)
  have hf2 : List_unlink (List_createBlock 8)
      (List_insertBlock [List_createBlock 8]
        (List_createBlock ((List_createBlock 8).size + n + HEADER_SIZE))) =
      some [⟨n + 16⟩] := by
    have hlt : ¬ (n + 16 < (8 : Int)) := by omega
    have e : (8 : Int) + n + 8 = n + 16 := by omega
    simp [List_insertBlock, List_insertBlock_walk, List_createBlock, HEADER_SIZE, hlt,
      List_unlink, e]
  have hal := @allocator_split
    { aalgorithm := alg, size := c, memory := m0, allocated := [],
      free := [List_createBlock 8], beyond_size := beyond } n (c - 8) (List_createBlock 8)
    m1 m2 [⟨n + 16⟩] (by rw [e0]; exact h0) (by rw [t3]; omega) hm1 hf2 hm2
  have hh8 : List_getSize m2 0 = some n := by
    have := getSize_store_same hm2
    rw [e0, t5] at this
    exact this
  have hhp : List_getSize m2 (n + 8) = some (c - 8 - n - 8) := by
    have h1 := getSize_store_same hm1
    have h2 := getSize_store_other ((List_createBlock 8).size + n) hm2
      (Or.inr (by rw [e0]; simp only [List_createBlock]; omega))
    rw [h1, t4] at h2
    have e : (List_createBlock 8).size + n = n + 8 := by simp only [List_createBlock]; omega
    rw [e] at h2
    exact h2
  have hall := hal
  simp only [List_insertBlock, List_createBlock] at hall
  have hallocate : allocate
      { aalgorithm := alg, size := c, memory := m0, allocated := [],
        free := [List_createBlock 8], beyond_size := beyond } n =
      some (Myalloc.mk alg c m2 [⟨8⟩] [⟨n + 16⟩] beyond, some 8) := by
    unfold allocate
    rw [if_pos hn, hsel]
    simp only [List_createBlock, hall, Option.map_some']
  refine ⟨_, _, hinit, rfl, rfl, ?_, hallocate, rfl, ?_, ⟨n + 16, rfl, ?_⟩, ?_⟩
  · simpa [header, HEADER_SIZE] using h0
  · simpa [header, HEADER_SIZE] using hh8
  · have e : n + 16 - HEADER_SIZE = n + 8 := by unfold HEADER_SIZE; omega
    simp only [header, e]
    exact hhp
  · have e : n + 16 - HEADER_SIZE = n + 8 := by unfold HEADER_SIZE; omega
    have hv : toInt (0 + toInt (c - 8 - n - 8)) = c - 16 - n := by unfold toInt; omega
    simp only [available_memory, available_loop, List_getSizeInt, e, hhp, Option.map_some',
      Option.bind_eq_bind, Option.some_bind, hv]

theorem initialize_then_allocate_witness :
    IsInt 40 ∧ (0 : Int) < 10 ∧ (10 : Int) + 8 + 1 ≤ 40 - 8 ∧
    (BEST_FIT = BEST_FIT → (10 : Int) + 40 < 2147483648) ∧
    ∃ st0 st1, initialize_allocator 40 BEST_FIT 0 = some st0 ∧
      st0.free = [⟨8⟩] ∧ st0.allocated = [] ∧ header st0 8 = some (40 - 8) ∧
      allocate st0 10 = some (st1, some 8) ∧
      st1.allocated = [⟨8⟩] ∧ header st1 8 = some 10 ∧
      (∃ p, st1.free = [⟨p⟩] ∧ header st1 p = some (40 - 8 - 10 - 8)) ∧
      available_memory st1 = some (40 - 16 - 10) :=
  ⟨by decide, by decide, by decide, by decide,
    initialize_then_allocate 40 10 0 BEST_FIT (by decide) (by decide) (by decide) (by decide)⟩

/-! ## A run to a duplicated descriptor -/

set_option maxRecDepth 1000000 in
/-- C1, at the failing input: after `initialize_allocator(40, FIRST_FIT)`,
`allocate(30)` returns the block at 8 and leaves 62 in its header, so the region
of this allocated block runs from byte 0 to byte 70 of a buffer of 40 bytes. -/
theorem allocated_region_past_buffer_end :
    Reachable (state_after 40 FIRST_FIT [.allocate 30]) ∧
    (state_after 40 FIRST_FIT []).free = [⟨8⟩] ∧
    header (state_after 40 FIRST_FIT []) 8 = some 32 ∧
    (allocate (state_after 40 FIRST_FIT []) 30).map Prod.snd = some (some 8) ∧
    (state_after 40 FIRST_FIT [.allocate 30]).allocated = [⟨8⟩] ∧
    header (state_after 40 FIRST_FIT [.allocate 30]) 8 = some 62 ∧
    region_inside (state_after 40 FIRST_FIT [.allocate 30]) ⟨8⟩ = false :=
  ⟨reachable_state_after (by decide) (by decide), by decide, by decide, by decide, by decide,
    by decide, by decide⟩

/-- C2, as stated, fails: right after `initialize_allocator(40, FIRST_FIT)` the only
block is the free block of header 32, and the sum of header plus payload over all
blocks is 40, the capacity, not 32. -/
theorem total_size_initially_capacity :
    Reachable (state_after 40 FIRST_FIT []) ∧
    (state_after 40 FIRST_FIT []).size = 40 ∧
    total_size (state_after 40 FIRST_FIT []) = 40 ∧
    total_size (state_after 40 FIRST_FIT []) ≠ (state_after 40 FIRST_FIT []).size - 8 :=
  ⟨reachable_state_after (by decide) (by decide), by decide, by decide, by decide⟩

/-- C2, amended: in every state reached from `initialize_allocator(capacity, policy)`
by calls of `allocate` that return null or split the chosen block and calls of
`deallocate` that empty the allocated list or merge no blocks, every block's header
is readable and the sum over all free and allocated blocks of (8 + header-declared
payload size) equals `capacity`. -/
theorem total_size_is_capacity (c beyond : Int) (alg : allocation_algorithm)
    (calls : List Call) (st0 st : Myalloc) (hc : IsInt c)
    (hinit : initialize_allocator c alg beyond = some st0)
    (hrun : run_conserving st0 calls = some st) :
    (∀ b ∈ st.free ++ st.allocated, (header st b.size).isSome = true) ∧
    total_size st = c ∧ st.size = c := by
  obtain ⟨ht, hsz⟩ := run_conserving_tiled calls st0 st (init_sized hc hinit)
    (init_tiled hc hinit) hrun
  obtain ⟨h1, h2⟩ := tiled_total ht
  have h3 := init_size hinit
  exact ⟨h1, by rw [h2, hsz, h3], by rw [hsz, h3]⟩

set_option maxRecDepth 1000000 in
theorem total_size_is_capacity_witness :
    IsInt 40 ∧
    initialize_allocator 40 WORST_FIT 0 = some (state_after 40 WORST_FIT []) ∧
    run_conserving (state_after 40 WORST_FIT [])
        [.allocate 10, .allocate 4, .allocate 100, .deallocate 8, .deallocate 26, .allocate 24] =
      some (state_after 40 WORST_FIT
        [.allocate 10, .allocate 4, .allocate 100, .deallocate 8, .deallocate 26, .allocate 24]) ∧
    (∀ b ∈ (state_after 40 WORST_FIT
          [.allocate 10, .allocate 4, .allocate 100, .deallocate 8, .deallocate 26,
            .allocate 24]).free ++
        (state_after 40 WORST_FIT
          [.allocate 10, .allocate 4, .allocate 100, .deallocate 8, .deallocate 26,
            .allocate 24]).allocated,
      (header (state_after 40 WORST_FIT
          [.allocate 10, .allocate 4, .allocate 100, .deallocate 8, .deallocate 26,
            .allocate 24]) b.size).isSome = true) ∧
    total_size (state_after 40 WORST_FIT
        [.allocate 10, .allocate 4, .allocate 100, .deallocate 8, .deallocate 26,
          .allocate 24]) = 40 ∧
    (state_after 40 WORST_FIT
        [.allocate 10, .allocate 4, .allocate 100, .deallocate 8, .deallocate 26,
          .allocate 24]).size = 40 :=
  ⟨by decide, by decide, by decide,
    total_size_is_capacity 40 0 WORST_FIT
      [.allocate 10, .allocate 4, .allocate 100, .deallocate 8, .deallocate 26, .allocate 24]
      (state_after 40 WORST_FIT [])
      (state_after 40 WORST_FIT
        [.allocate 10, .allocate 4, .allocate 100, .deallocate 8, .deallocate 26, .allocate 24])
      (by decide) (by decide) (by decide)⟩

/-- C3: in every reachable state whose allocated list holds exactly one block,
`deallocate` of that block's payload address returns, leaves the allocated list
empty and the free list with the single descriptor at payload offset 8, whose
header is `capacity - 8`, and `available_memory()` then returns `capacity - 8`. -/
theorem deallocate_last_block_resets (st : Myalloc) (block : memoryBlock)
    (hr : Reachable st) (hone : st.allocated = [block]) :
    ∃ st1, deallocate st block.size = some st1 ∧ st1.allocated = [] ∧
      st1.free = [⟨8⟩] ∧ header st1 8 = some (st.size - 8) ∧
      available_memory st1 = some (st.size - 8) ∧ st1.size = st.size := by
  have hs := reachable_sized hr
  obtain ⟨m, h1, h2, -, -⟩ := init_free_memory_some
    { st with allocated := [], free := [] } hs
  have hi := hs.1
  have h8 := hs.2.1
  refine ⟨{ st with memory := m, allocated := [], free := [⟨8⟩] }, ?_, rfl, rfl, ?_, ?_, rfl⟩
  · unfold deallocate
    simp only [hone, List_findBlock, if_true, List_deleteBlock, List_unlink, Option.bind_eq_bind,
      Option.some_bind, List_destroy, h1]
    rfl
  · simpa [header, HEADER_SIZE] using h2
  · have hv : toInt (toInt (st.size - 8)) = st.size - 8 := by
      unfold IsInt at hi
      unfold toInt
      omega
    simp [available_memory, available_loop, List_getSizeInt, HEADER_SIZE, h2, hv]

theorem deallocate_last_block_resets_witness :
    Reachable (state_after 40 FIRST_FIT [.allocate 10, .allocate 4, .deallocate 8]) ∧
    (state_after 40 FIRST_FIT [.allocate 10, .allocate 4, .deallocate 8]).allocated = [⟨26⟩] ∧
    ∃ st1, deallocate (state_after 40 FIRST_FIT [.allocate 10, .allocate 4, .deallocate 8])
        (⟨26⟩ : memoryBlock).size = some st1 ∧ st1.allocated = [] ∧
      st1.free = [⟨8⟩] ∧
      header st1 8 =
        some ((state_after 40 FIRST_FIT [.allocate 10, .allocate 4, .deallocate 8]).size - 8) ∧
      available_memory st1 =
        some ((state_after 40 FIRST_FIT [.allocate 10, .allocate 4, .deallocate 8]).size - 8) ∧
      st1.size = (state_after 40 FIRST_FIT [.allocate 10, .allocate 4, .deallocate 8]).size :=
  ⟨reachable_state_after (by decide) (by decide), by decide,
    deallocate_last_block_resets _ ⟨26⟩ (reachable_state_after (by decide) (by decide))
      (by decide)⟩

/-- C4: for every arena state, every policy and every `n > 0`: if every block of
the free list has a header-declared payload size below `n`, then `allocate(n)`
returns null and the state (both lists and the whole buffer, hence every header)
is exactly as before the call. -/
theorem allocate_without_fit_returns_null (st : Myalloc) (n : Int)
    (hn : 0 < n) (hi : IsInt n)
    (hsmall : ∀ b ∈ st.free, ∃ h, header st b.size = some h ∧ h < n) :
    allocate st n = some (st, none) := by
  unfold IsInt at hi
  have t : toSizeT n = n := by unfold toSizeT; omega
  have hsel : select_block st n = some none := by
    unfold select_block
    cases st.aalgorithm with
    | FIRST_FIT =>
      have := @first_fit_skip st.memory n st.free [] (fun x hx => by
        obtain ⟨h, hh, hlt⟩ := hsmall x hx
        have h0 := getSize_nonneg hh
        exact ⟨h, hh, by unfold toInt; omega⟩)
      simpa [first_fit] using this
    | WORST_FIT =>
      exact worst_fit_skip 0 none (fun x hx => by
        obtain ⟨h, hh, hlt⟩ := hsmall x hx
        exact ⟨h, hh, by omega⟩)
    | BEST_FIT =>
      exact best_fit_skip st.size none (fun x hx => by
        obtain ⟨h, hh, hlt⟩ := hsmall x hx
        exact ⟨h, hh, by omega⟩)
  unfold allocate
  rw [if_pos hn, hsel]

theorem allocate_without_fit_returns_null_witness :
    (0 : Int) < 11 ∧ IsInt 11 ∧
    (∀ b ∈ (state_after 40 BEST_FIT [.allocate 10, .allocate 4, .deallocate 8]).free,
      ∃ h, header (state_after 40 BEST_FIT [.allocate 10, .allocate 4, .deallocate 8]) b.size =
        some h ∧ h < 11) ∧
    allocate (state_after 40 BEST_FIT [.allocate 10, .allocate 4, .deallocate 8]) 11 =
      some (state_after 40 BEST_FIT [.allocate 10, .allocate 4, .deallocate 8], none) :=
  ⟨by decide, by decide, by decide,
    allocate_without_fit_returns_null _ 11 (by decide) (by decide) (by decide)⟩

/-- C5, at the failing input: with capacity `INT_MAX` and `n = 2^30` (so that
`n + 8 + 1 <= c - 8`), under `BEST_FIT` the bound `_size + fragment_size` of the
search, with `fragment_size` still the capacity, exceeds `INT_MAX` and wraps to a
negative `int`; the only free block, of payload size `c - 8 >= n`, is not selected and
`allocate(n)` returns null.  Under `FIRST_FIT` and under `WORST_FIT` the same call on
the same arena returns the payload offset 8. -/
theorem best_fit_initial_allocate_returns_null :
    IsInt 2147483647 ∧ (0 : Int) < 1073741824 ∧
    (1073741824 : Int) + 8 + 1 ≤ 2147483647 - 8 ∧
    (initialize_allocator 2147483647 BEST_FIT 0).bind
      (fun st0 => (allocate st0 1073741824).map Prod.snd) = some none ∧
    (initialize_allocator 2147483647 FIRST_FIT 0).bind
      (fun st0 => (allocate st0 1073741824).map Prod.snd) = some (some 8) ∧
    (initialize_allocator 2147483647 WORST_FIT 0).bind
      (fun st0 => (allocate st0 1073741824).map Prod.snd) = some (some 8) := by
  refine ⟨by decide, by decide, by decide, ?_, ?_, ?_⟩
  · obtain ⟨m0, hinit, h0, -, -⟩ :=
      initialize_allocator_some 2147483647 0 BEST_FIT (by decide) (by decide)
    have hsel : select_block
        { aalgorithm := BEST_FIT, size := 2147483647, memory := m0, allocated := [],
          free := [List_createBlock 8], beyond_size := 0 } 1073741824 = some none := by
      have e0 : (8 : Int) - HEADER_SIZE = 0 := by decide
      have t1 : toSizeT 1073741824 = 1073741824 := by decide
      have t2 : toInt (2147483647 - 8) = 2147483639 := by decide
      have t3 : toInt (1073741824 + 2147483647) = -1073741825 := by decide
      simp only [select_block, best_fit, List_getSizeInt, List_createBlock, e0, h0,
        Option.map_some', Option.bind_eq_bind, Option.some_bind, t1, t2, t3]
      rw [if_pos (by decide), if_neg (by decide)]
    rw [hinit, Option.some_bind]
    unfold allocate
    rw [if_pos (by decide), hsel]
    rfl
  · obtain ⟨st0, st1, hi, -, -, -, ha, -⟩ := initialize_then_allocate 2147483647 1073741824 0
      FIRST_FIT (by decide) (by decide) (by decide) (by intro h; cases h)
    rw [hi, Option.some_bind, ha]
    rfl
  · obtain ⟨st0, st1, hi, -, -, -, ha, -⟩ := initialize_then_allocate 2147483647 1073741824 0
      WORST_FIT (by decide) (by decide) (by decide) (by intro h; cases h)
    rw [hi, Option.some_bind, ha]
    rfl

set_option maxRecDepth 1000000 in
/-- C6, as stated, fails: with free blocks of payload sizes 50, 10 and 30 at the
addresses 8, 75 and 102, `allocate(20)` under `FIRST_FIT` takes the block at 8, of
payload size 50, although the block of payload size 30 is sufficient. -/
theorem first_fit_not_smallest_sufficient :
    Reachable (state_after 132 FIRST_FIT calls_50_10_30) ∧
    (state_after 132 FIRST_FIT calls_50_10_30).free = [⟨8⟩, ⟨75⟩, ⟨102⟩] ∧
    (state_after 132 FIRST_FIT calls_50_10_30).free.map
      (fun b => header (state_after 132 FIRST_FIT calls_50_10_30) b.size) =
      [some 50, some 10, some 30] ∧
    select_block (state_after 132 FIRST_FIT calls_50_10_30) 20 = some (some ⟨8⟩) ∧
    (allocate (state_after 132 FIRST_FIT calls_50_10_30) 20).map Prod.snd = some (some 8) :=
  ⟨reachable_state_after (by decide) (by decide), by decide, by decide, by decide, by decide⟩

/-- C6, amended: under `FIRST_FIT`, for every arena state whose free list is in
ascending order of payload address (as in every reachable state) and whose free
headers are readable, and every `n > 0` such that some free block has a payload size
(as the `int` the search reads) of at least `n`, `allocate(n)` takes the first such
block in list order, which is the one of lowest payload address: it hands this block
to `allocator`. -/
theorem first_fit_takes_lowest_address (st : Myalloc) (n : Int)
    (halg : st.aalgorithm = FIRST_FIT) (hn : 0 < n) (hsorted : SortedByKey st.free)
    (hread : ∀ x ∈ st.free, (header st x.size).isSome = true)
    (hex : ∃ x ∈ st.free, ∃ hx, header st x.size = some hx ∧ n ≤ toInt hx) :
    ∃ pre b post h, st.free = pre ++ b :: post ∧
      header st b.size = some h ∧ n ≤ toInt h ∧
      (∀ x ∈ pre, ∃ hx, header st x.size = some hx ∧ toInt hx < n) ∧
      (∀ x ∈ st.free, ∀ hx, header st x.size = some hx → n ≤ toInt hx → b.size ≤ x.size) ∧
      select_block st n = some (some b) ∧
      allocate st n = (allocator st n b).map (fun r => (r.1, some r.2)) := by
  obtain ⟨pre, b, post, hfree, ⟨h, hh, hfit⟩, hpre⟩ :=
    first_split (fun x => ∃ hx, header st x.size = some hx ∧ n ≤ toInt hx) st.free hex
  have hpre1 : ∀ x ∈ pre, ∃ hx, header st x.size = some hx ∧ toInt hx < n := by
    intro x hx
    have hxm : x ∈ st.free := by rw [hfree]; exact List.mem_append_left _ hx
    obtain ⟨v, hv⟩ := Option.isSome_iff_exists.1 (hread x hxm)
    refine ⟨v, hv, ?_⟩
    by_contra hc
    exact hpre x hx ⟨v, hv, by omega⟩
  have hsel : select_block st n = some (some b) := by
    unfold select_block
    rw [halg, hfree]
    simp only
    rw [first_fit_skip hpre1]
    unfold header at hh
    simp only [first_fit, List_getSizeInt, hh, Option.map_some', Option.bind_eq_bind,
      Option.some_bind]
    rw [if_pos (by omega)]
  refine ⟨pre, b, post, h, hfree, hh, hfit, hpre1, ?_, hsel, ?_⟩
  · intro x hx v hv hvn
    rw [hfree] at hx hsorted
    unfold SortedByKey at hsorted
    rw [List.pairwise_append] at hsorted
    obtain ⟨-, hs2, -⟩ := hsorted
    rcases List.mem_append.1 hx with hx | hx
    · obtain ⟨w, hw, hlt⟩ := hpre1 x hx
      rw [hv, Option.some.injEq] at hw
      subst hw
      omega
    · rcases List.mem_cons.1 hx with rfl | hx
      · exact le_refl _
      · exact List.rel_of_pairwise_cons hs2 hx
  · unfold allocate
    rw [if_pos hn, hsel]

set_option maxRecDepth 1000000 in
theorem first_fit_takes_lowest_address_witness :
    (state_after 132 FIRST_FIT calls_50_10_30).aalgorithm = FIRST_FIT ∧ (0 : Int) < 20 ∧
    SortedByKey (state_after 132 FIRST_FIT calls_50_10_30).free ∧
    (∀ x ∈ (state_after 132 FIRST_FIT calls_50_10_30).free,
      (header (state_after 132 FIRST_FIT calls_50_10_30) x.size).isSome = true) ∧
    (∃ x ∈ (state_after 132 FIRST_FIT calls_50_10_30).free,
      ∃ hx, header (state_after 132 FIRST_FIT calls_50_10_30) x.size = some hx ∧
        20 ≤ toInt hx) ∧
    ∃ pre b post h, (state_after 132 FIRST_FIT calls_50_10_30).free = pre ++ b :: post ∧
      header (state_after 132 FIRST_FIT calls_50_10_30) b.size = some h ∧ 20 ≤ toInt h ∧
      (∀ x ∈ pre, ∃ hx, header (state_after 132 FIRST_FIT calls_50_10_30) x.size = some hx ∧
        toInt hx < 20) ∧
      (∀ x ∈ (state_after 132 FIRST_FIT calls_50_10_30).free, ∀ hx,
        header (state_after 132 FIRST_FIT calls_50_10_30) x.size = some hx → 20 ≤ toInt hx →
        b.size ≤ x.size) ∧
      select_block (state_after 132 FIRST_FIT calls_50_10_30) 20 = some (some b) ∧
      allocate (state_after 132 FIRST_FIT calls_50_10_30) 20 =
        (allocator (state_after 132 FIRST_FIT calls_50_10_30) 20 b).map
          (fun r => (r.1, some r.2)) :=
  ⟨by decide, by decide, by decide, by decide, by decide,
    first_fit_takes_lowest_address _ 20 (by decide) (by decide) (by decide) (by decide)
      (by decide)⟩

set_option maxRecDepth 1000000 in
/-- C7, at the failing input: with free blocks of payload sizes 50, 10 and 30 at the
addresses 8, 75 and 102, `allocate(20)` under `BEST_FIT` takes the block at 8, of
payload size 50 and leftover 30, not the block of payload size 30 and leftover 10. -/
theorem best_fit_takes_size_50 :
    Reachable (state_after 132 BEST_FIT calls_50_10_30) ∧
    (state_after 132 BEST_FIT calls_50_10_30).free = [⟨8⟩, ⟨75⟩, ⟨102⟩] ∧
    (state_after 132 BEST_FIT calls_50_10_30).free.map
      (fun b => header (state_after 132 BEST_FIT calls_50_10_30) b.size) =
      [some 50, some 10, some 30] ∧
    select_block (state_after 132 BEST_FIT calls_50_10_30) 20 = some (some ⟨8⟩) ∧
    (allocate (state_after 132 BEST_FIT calls_50_10_30) 20).map Prod.snd = some (some 8) :=
  ⟨reachable_state_after (by decide) (by decide), by decide, by decide, by decide, by decide⟩

set_option maxRecDepth 1000000 in
/-- C8, at the failing input: with free blocks of payload sizes 50, 10 and 30 at the
addresses 8, 75 and 102, `allocate(20)` under `WORST_FIT` takes the block at 102, of
payload size 30 and leftover 10, not the block of payload size 50 and leftover 30. -/
theorem worst_fit_takes_size_30 :
    Reachable (state_after 132 WORST_FIT calls_50_10_30) ∧
    (state_after 132 WORST_FIT calls_50_10_30).free = [⟨8⟩, ⟨75⟩, ⟨102⟩] ∧
    (state_after 132 WORST_FIT calls_50_10_30).free.map
      (fun b => header (state_after 132 WORST_FIT calls_50_10_30) b.size) =
      [some 50, some 10, some 30] ∧
    select_block (state_after 132 WORST_FIT calls_50_10_30) 20 = some (some ⟨102⟩) ∧
    (allocate (state_after 132 WORST_FIT calls_50_10_30) 20).map Prod.snd = some (some 102) :=
  ⟨reachable_state_after (by decide) (by decide), by decide, by decide, by decide, by decide⟩

/-- C9, as stated, fails: after `initialize_allocator(40, FIRST_FIT)`, `allocate(10)`
and `allocate(4)` the allocated list holds the blocks at 8 and 26, whose headers
are 10 and 4: it is not in non-decreasing order of payload size. -/
theorem allocated_list_not_sorted_by_payload_size :
    Reachable (state_after 40 FIRST_FIT [.allocate 10, .allocate 4]) ∧
    (state_after 40 FIRST_FIT [.allocate 10, .allocate 4]).allocated = [⟨8⟩, ⟨26⟩] ∧
    ¬ SortedByPayloadSize (state_after 40 FIRST_FIT [.allocate 10, .allocate 4])
        (state_after 40 FIRST_FIT [.allocate 10, .allocate 4]).allocated :=
  ⟨reachable_state_after (by decide) (by decide), by decide, by decide⟩

/-- C9, amended: in every state reachable from `initialize_allocator` by calls of
`allocate`, `deallocate` and `compact_allocation`, the free list and the allocated
list are in non-decreasing order of the descriptors' field `size`, which holds the
payload address (not the header-declared payload size). -/
theorem lists_sorted_by_payload_address (st : Myalloc) (h : Reachable st) :
    SortedByKey st.free ∧ SortedByKey st.allocated :=
  reachable_induction (fun s => SortedByKey s.free ∧ SortedByKey s.allocated)
    (fun _ _ _ _ _ h0 => init_sorted h0) (fun _ _ _ hs hstep => step_sorted hs hstep) st h

theorem lists_sorted_by_payload_address_witness :
    Reachable (state_after 40 FIRST_FIT [.allocate 10, .allocate 4]) ∧
    SortedByKey (state_after 40 FIRST_FIT [.allocate 10, .allocate 4]).free ∧
    SortedByKey (state_after 40 FIRST_FIT [.allocate 10, .allocate 4]).allocated :=
  ⟨reachable_state_after (by decide) (by decide),
    lists_sorted_by_payload_address _ (reachable_state_after (by decide) (by decide))⟩

/-- C10: for every list in non-decreasing order of the key `List_insertBlock`
compares (the field `size`) and every descriptor, `List_insertBlock` yields a list
that is again in non-decreasing order of that key and that consists of the previous
descriptors, in their previous order, with the new descriptor put in between. -/
theorem List_insertBlock_keeps_order (head : List memoryBlock) (chunk : memoryBlock)
    (hs : SortedByKey head) :
    SortedByKey (List_insertBlock head chunk) ∧
    ∃ pre post, head = pre ++ post ∧ List_insertBlock head chunk = pre ++ chunk :: post := by
  obtain ⟨pre, post, h1, h2, -⟩ := insert_split head chunk
  exact ⟨insert_sorted chunk hs, pre, post, h1, h2⟩

theorem List_insertBlock_keeps_order_witness :
    SortedByKey [⟨8⟩, ⟨26⟩, ⟨26⟩, ⟨40⟩] ∧
    SortedByKey (List_insertBlock [⟨8⟩, ⟨26⟩, ⟨26⟩, ⟨40⟩] ⟨26⟩) ∧
    ∃ pre post, [⟨8⟩, ⟨26⟩, ⟨26⟩, ⟨40⟩] = pre ++ post ∧
      List_insertBlock [⟨8⟩, ⟨26⟩, ⟨26⟩, ⟨40⟩] ⟨26⟩ = pre ++ (⟨26⟩ : memoryBlock) :: post :=
  ⟨by decide, List_insertBlock_keeps_order _ _ (by decide)⟩

/-- C11, at the failing input: after `initialize_allocator(40, FIRST_FIT)` and
`compact_allocation()` the allocated list is empty and the free list holds two
descriptors at payload offset 8, with header 40; `allocate(10)` succeeds and returns
offset 8, and the following `deallocate(8)` leaves the free list with one descriptor
at offset 8, with header 32: not the free list from before the `allocate`. -/
theorem round_trip_after_compaction :
    Reachable (state_after 40 FIRST_FIT [.compact_allocation]) ∧
    (state_after 40 FIRST_FIT [.compact_allocation]).allocated = [] ∧
    (state_after 40 FIRST_FIT [.compact_allocation]).free = [⟨8⟩, ⟨8⟩] ∧
    (state_after 40 FIRST_FIT [.compact_allocation]).free.map
      (fun b => header (state_after 40 FIRST_FIT [.compact_allocation]) b.size) =
      [some 40, some 40] ∧
    (allocate (state_after 40 FIRST_FIT [.compact_allocation]) 10).map Prod.snd =
      some (some 8) ∧
    ((allocate (state_after 40 FIRST_FIT [.compact_allocation]) 10).bind
      (fun r => deallocate r.1 8)).map
      (fun st => (st.free, st.free.map (fun b => header st b.size))) =
      some ([⟨8⟩], [some 32]) :=
  ⟨reachable_state_after (by decide) (by decide), by decide, by decide, by decide, by decide,
    by decide⟩

/-- C12, at the failing input: after `initialize_allocator(40, FIRST_FIT)` and
`allocate(10)` the one allocated block sits at payload offset 8, right at the start of
the buffer, and `compact_allocation` returns 1, with `_before[0] = _after[0] = 8`. -/
theorem compaction_reports_unmoved_block :
    Reachable (state_after 40 FIRST_FIT [.allocate 10]) ∧
    (state_after 40 FIRST_FIT [.allocate 10]).allocated = [⟨8⟩] ∧
    (compact_allocation (state_after 40 FIRST_FIT [.allocate 10])).map Prod.snd =
      some (1, [8], [8]) :=
  ⟨reachable_state_after (by decide) (by decide), by decide, by decide⟩

/-- C16, at the failing input: after `initialize_allocator(40, FIRST_FIT)` the free
block has payload size 32 = 24 + 8, and `allocate(24)` splits it: the free list then
holds a descriptor at payload offset 40 whose header-declared payload size is 0. -/
theorem split_creates_empty_free_block :
    Reachable (state_after 40 FIRST_FIT [.allocate 24]) ∧
    header (state_after 40 FIRST_FIT []) 8 = some 32 ∧
    (allocate (state_after 40 FIRST_FIT []) 24).map Prod.snd = some (some 8) ∧
    (state_after 40 FIRST_FIT [.allocate 24]).free = [⟨40⟩] ∧
    header (state_after 40 FIRST_FIT [.allocate 24]) 40 = some 0 ∧
    header (state_after 40 FIRST_FIT [.allocate 24]) 8 = some 24 :=
  ⟨reachable_state_after (by decide) (by decide), by decide, by decide, by decide, by decide,
    by decide⟩

/-- C17, at the failing input: after `initialize_allocator(40, FIRST_FIT)` the free
block has payload size 32, and `allocate(30)` serves the request from it without
splitting; the header of the allocated block is then 62 = 30 + 32, not 32, and
`get_statistics` reports `allocated_size = 62`, more than `capacity - 8 = 32`. -/
theorem unsplit_header_is_request_plus_size :
    Reachable (state_after 40 FIRST_FIT [.allocate 30]) ∧
    header (state_after 40 FIRST_FIT []) 8 = some 32 ∧
    (allocate (state_after 40 FIRST_FIT []) 30).map Prod.snd = some (some 8) ∧
    (state_after 40 FIRST_FIT [.allocate 30]).free = [] ∧
    (state_after 40 FIRST_FIT [.allocate 30]).allocated = [⟨8⟩] ∧
    header (state_after 40 FIRST_FIT [.allocate 30]) 8 = some 62 ∧
    (get_statistics (state_after 40 FIRST_FIT [.allocate 30])).map
      (fun s => s.allocated_size) = some 62 :=
  ⟨reachable_state_after (by decide) (by decide), by decide, by decide, by decide, by decide,
    by decide, by decide⟩

set_option maxRecDepth 1000000 in
/-- C18, at the failing input: in a buffer of 64 bytes three blocks of payload size 4
are allocated at the payload offsets 8, 20 and 32; after `deallocate(8)` the free list
is the block at 8 (header 4) and the block at 44; `deallocate(20)` then merges the
address-adjacent blocks at 8 and 20 (8 + 4 + 8 = 20) while the block at 32 stays
allocated, and the surviving block at 8 has header 8 = 4 + 4, not 16 = 4 + 4 + 8. -/
theorem merged_header_lacks_header_size :
    Reachable (state_after 64 FIRST_FIT
      [.allocate 4, .allocate 4, .allocate 4, .deallocate 8, .deallocate 20]) ∧
    (state_after 64 FIRST_FIT [.allocate 4, .allocate 4, .allocate 4, .deallocate 8]).free =
      [⟨8⟩, ⟨44⟩] ∧
    (state_after 64 FIRST_FIT
      [.allocate 4, .allocate 4, .allocate 4, .deallocate 8]).allocated = [⟨20⟩, ⟨32⟩] ∧
    header (state_after 64 FIRST_FIT
      [.allocate 4, .allocate 4, .allocate 4, .deallocate 8]) 8 = some 4 ∧
    header (state_after 64 FIRST_FIT
      [.allocate 4, .allocate 4, .allocate 4, .deallocate 8]) 20 = some 4 ∧
    (deallocate (state_after 64 FIRST_FIT
      [.allocate 4, .allocate 4, .allocate 4, .deallocate 8]) 20).map
      (fun st => (st.free, st.allocated, header st 8)) =
      some ([⟨8⟩, ⟨44⟩], [⟨32⟩], some 8) :=
  ⟨reachable_state_after (by decide) (by decide), by decide, by decide, by decide, by decide,
    by decide⟩

/-- C14, as stated, fails: after `initialize_allocator(40, FIRST_FIT)` and
`allocate(30)`, which consumes the whole initial free block, the free list is empty and
`get_statistics` reports `free_chunks = 0`, `largest_free_chunk_size = 0` and
`smallest_free_chunk_size = 40`, the capacity. -/
theorem statistics_smallest_is_capacity :
    Reachable (state_after 40 FIRST_FIT [.allocate 30]) ∧
    (state_after 40 FIRST_FIT [.allocate 30]).free = [] ∧
    (state_after 40 FIRST_FIT [.allocate 30]).size = 40 ∧
    (get_statistics (state_after 40 FIRST_FIT [.allocate 30])).map
      (fun s => (s.free_chunks, s.smallest_free_chunk_size, s.largest_free_chunk_size)) =
      some (0, 40, 0) :=
  ⟨reachable_state_after (by decide) (by decide), by decide, by decide, by decide⟩

/-- C14, amended: for every arena state whose free list is empty (and whose allocated
descriptors have their headers inside the buffer), `get_statistics` returns and reports
`free_chunks = 0`, `free_size = 0`, `largest_free_chunk_size = 0` and
`smallest_free_chunk_size = capacity`, the value `myalloc.size` it starts from. -/
theorem statistics_of_empty_free_list (st : Myalloc) (hfree : st.free = [])
    (halloc : ∀ b ∈ st.allocated, (header st b.size).isSome = true) :
    ∃ stats, get_statistics st = some stats ∧ stats.free_chunks = 0 ∧ stats.free_size = 0 ∧
      stats.largest_free_chunk_size = 0 ∧ stats.smallest_free_chunk_size = st.size := by
  obtain ⟨stats, hs⟩ := get_statistics_some st (by rw [hfree]; simp) halloc
  obtain ⟨s1, h1, e1, e2, e3, e4⟩ := get_statistics_inv hs
  rw [hfree] at h1
  simp only [statistics_free, Option.some.injEq] at h1
  subst h1
  exact ⟨s1, hs, e2, e1, e4, e3⟩

theorem statistics_of_empty_free_list_witness :
    (state_after 40 FIRST_FIT [.allocate 30]).free = [] ∧
    (∀ b ∈ (state_after 40 FIRST_FIT [.allocate 30]).allocated,
      (header (state_after 40 FIRST_FIT [.allocate 30]) b.size).isSome = true) ∧
    ∃ stats, get_statistics (state_after 40 FIRST_FIT [.allocate 30]) = some stats ∧
      stats.free_chunks = 0 ∧ stats.free_size = 0 ∧
      stats.largest_free_chunk_size = 0 ∧
      stats.smallest_free_chunk_size = (state_after 40 FIRST_FIT [.allocate 30]).size :=
  ⟨by decide, by decide, statistics_of_empty_free_list _ (by decide) (by decide)⟩

/-- C19, as stated, fails: with nodes written as (key, identity), inserting the node
(8, 2) into the list of the nodes (8, 0) and (26, 1) puts it behind the head (8, 0),
which is the first existing node whose key is >= 8, not before it. -/
theorem insert_tie_with_head_goes_second :
    List_insertBlock_keyed Prod.fst [((8 : Int), (0 : Nat)), (26, 1)] (8, 2) =
      [(8, 0), (8, 2), (26, 1)] ∧
    List_insertBlock_keyed Prod.fst [((8 : Int), (0 : Nat)), (26, 1)] (8, 2) ≠
      (8, 2) :: [(8, 0), (26, 1)] :=
  ⟨by decide, by decide⟩

/-- C19, amended: for every list sorted by the key `List_insertBlock` compares and every
new descriptor `d`: when the key of `d` ties with the key of the head, `d` is placed
right behind the head; in every other case `d` is placed immediately before the first
existing descriptor whose key is >= the key of `d` (at the end if there is none), so
that it ends up ahead of all previously inserted descriptors of the same key. -/
theorem List_insertBlock_position {α : Type} (key : α → Int) (head : List α) (d : α)
    (hs : head.Pairwise (fun a b => key a ≤ key b)) :
    (∀ h t, head = h :: t → key h = key d →
      List_insertBlock_keyed key head d = h :: d :: t) ∧
    ((∀ h t, head = h :: t → key h ≠ key d) →
      ∃ pre post, head = pre ++ post ∧
        List_insertBlock_keyed key head d = pre ++ d :: post ∧
        (∀ x ∈ pre, key x < key d) ∧ (∀ y ∈ post, key d ≤ key y)) := by
  constructor
  · intro h t hht htie
    subst hht
    rw [List.pairwise_cons] at hs
    simp only [List_insertBlock_keyed, if_neg (show ¬ key d < key h by omega)]
    cases t with
    | nil => rfl
    | cons a t1 =>
      have := hs.1 a (List.mem_cons_self _ _)
      simp only [List_insertBlock_walk_keyed, if_neg (show ¬ key a < key d by omega)]
  · intro hne
    cases head with
    | nil => exact ⟨[], [], rfl, rfl, by simp, by simp⟩
    | cons h t =>
      have hn := hne h t rfl
      rw [List.pairwise_cons] at hs
      by_cases hlt : key d < key h
      · refine ⟨[], h :: t, rfl, ?_, by simp, ?_⟩
        · simp only [List_insertBlock_keyed, if_pos hlt, List.nil_append]
        · intro y hy
          rcases List.mem_cons.1 hy with rfl | hy
          · omega
          · have := hs.1 y hy
            omega
      · obtain ⟨pre, post, h1, h2, h3, h4⟩ := walk_keyed_split key d t hs.2
        refine ⟨h :: pre, post, by rw [h1]; rfl, ?_, ?_, h4⟩
        · simp only [List_insertBlock_keyed, if_neg hlt, h2, List.cons_append]
        · intro x hx
          rcases List.mem_cons.1 hx with rfl | hx
          · omega
          · exact h3 x hx

theorem List_insertBlock_position_witness :
    [((8 : Int), (0 : Nat)), (26, 1), (26, 2), (40, 3)].Pairwise
      (fun a b => Prod.fst a ≤ Prod.fst b) ∧
    (∀ h t, [((8 : Int), (0 : Nat)), (26, 1), (26, 2), (40, 3)] = h :: t →
      Prod.fst h = Prod.fst ((26 : Int), (4 : Nat)) →
      List_insertBlock_keyed Prod.fst [((8 : Int), (0 : Nat)), (26, 1), (26, 2), (40, 3)]
        (26, 4) = h :: (26, 4) :: t) ∧
    ((∀ h t, [((8 : Int), (0 : Nat)), (26, 1), (26, 2), (40, 3)] = h :: t →
        Prod.fst h ≠ Prod.fst ((26 : Int), (4 : Nat))) →
      ∃ pre post, [((8 : Int), (0 : Nat)), (26, 1), (26, 2), (40, 3)] = pre ++ post ∧
        List_insertBlock_keyed Prod.fst [((8 : Int), (0 : Nat)), (26, 1), (26, 2), (40, 3)]
          (26, 4) = pre ++ (26, 4) :: post ∧
        (∀ x ∈ pre, Prod.fst x < Prod.fst ((26 : Int), (4 : Nat))) ∧
        (∀ y ∈ post, Prod.fst ((26 : Int), (4 : Nat)) ≤ Prod.fst y)) :=
  ⟨by decide, List_insertBlock_position Prod.fst _ (26, 4) (by decide)⟩

/-- C20: for every reachable arena state, the free list a completed `deallocate`
leaves behind has no two consecutive descriptors `a`, `b` with
`a.addr + header(a) + 8 = b.addr` (the header of `a` is readable and the sum, taken
in the integers, differs from `b.addr`), whether or not the allocated list is left
non-empty.  The call completes whenever `p` is the payload address of an allocated
descriptor and no descriptor of the state occurs twice. -/
theorem deallocate_leaves_no_mergeable_pair (st : Myalloc) (p : Int) (hr : Reachable st) :
    (∀ st1, deallocate st p = some st1 →
      ∀ pre a b post, st1.free = pre ++ a :: b :: post →
        ∃ h, header st1 a.size = some h ∧ a.size + h + HEADER_SIZE ≠ b.size) ∧
    ((st.free ++ st.allocated).Nodup → (∃ b ∈ st.allocated, b.size = p) →
      ∃ st1, deallocate st p = some st1) := by
  refine ⟨?_, fun hnd hex => ?_⟩
  · intro st1 h pre a b post hfree
    have hch := deallocate_coalesced (reachable_sized hr) (reachable_headers hr)
      (reachable_sorted hr).1 h
    rw [hfree] at hch
    have hab := (List.chain'_append_cons_cons.1 hch).2.1
    have hr1 : Reachable st1 := reachable_step (.deallocate p) hr h
    have hread := @header_readable st1 (reachable_headers hr1) a
      (List.mem_append_left _ (by rw [hfree]; simp))
    obtain ⟨v, hv⟩ := Option.isSome_iff_exists.1 hread
    exact ⟨v, hv, fun hsum => hab ⟨v, hv, hsum⟩⟩
  · obtain ⟨chunk, hfind⟩ := findBlock_some hex
    exact deallocate_some (reachable_sized hr) (reachable_headers hr) hnd hfind

set_option maxRecDepth 1000000 in
theorem deallocate_leaves_no_mergeable_pair_witness :
    Reachable (state_after 64 FIRST_FIT
      [.allocate 4, .allocate 4, .allocate 4, .deallocate 8]) ∧
    (state_after 64 FIRST_FIT
      [.allocate 4, .allocate 4, .allocate 4, .deallocate 8]).free = [⟨8⟩, ⟨44⟩] ∧
    (∃ st1, deallocate (state_after 64 FIRST_FIT
      [.allocate 4, .allocate 4, .allocate 4, .deallocate 8]) 20 = some st1) ∧
    (state_after 64 FIRST_FIT
      [.allocate 4, .allocate 4, .allocate 4, .deallocate 8, .deallocate 20]).allocated =
        [⟨32⟩] ∧
    ∃ h, header (state_after 64 FIRST_FIT
        [.allocate 4, .allocate 4, .allocate 4, .deallocate 8, .deallocate 20])
        (⟨8⟩ : memoryBlock).size = some h ∧
      (⟨8⟩ : memoryBlock).size + h + HEADER_SIZE ≠ (⟨44⟩ : memoryBlock).size :=
  ⟨reachable_state_after (by decide) (by decide), by decide,
    (deallocate_leaves_no_mergeable_pair _ 20
      (reachable_state_after (by decide) (by decide))).2 (by decide) ⟨⟨20⟩, by decide, rfl⟩,
    by decide,
    (deallocate_leaves_no_mergeable_pair
      (state_after 64 FIRST_FIT [.allocate 4, .allocate 4, .allocate 4, .deallocate 8]) 20
      (reachable_state_after (by decide) (by decide))).1
      (state_after 64 FIRST_FIT
        [.allocate 4, .allocate 4, .allocate 4, .deallocate 8, .deallocate 20])
      (by decide) [] ⟨8⟩ ⟨44⟩ [] (by decide)⟩

end Allocator
